import Mathlib

/-!
Verification of the peek-cursor engine of the partitioned transaction log
(`fdbserver/ptxn/TLogPeekCursor.actor.cpp`).

The development shallowly embeds the leaf cursor (`StorageTeamPeekCursor`),
the broadcast merge cursors (`BroadcastedStorageTeamPeekCursor_Ordered` /
`_Unordered` over `BroadcastedStorageTeamPeekCursorBase`), the two cursor
containers, and the `advanceTo` protocol.  Remote interaction is modelled by
passing the `TLogPeekReply` (already deserialized into a list of
`(version, subsequence, message)` triples) as an explicit input; fatal
assertions (`ASSERT` / `UNSTOPPABLE_ASSERT`) are modelled by returning `none`.
-/

namespace Ptxn

/- Throughout, `Int` stands for the source's `Version` (signed 64-bit commit
version), `Nat` for its `Subsequence` (unsigned 32-bit per-version ordering
token) and, where noted, for the opaque 128-bit `StorageTeamID` (the cursor
code only compares team ids and orders them inside `std::map` / `std::set`,
which a natural number models faithfully). -/

/-- The sentinel version (`invalidVersion` in the source, -1). -/
def invalidVersion : Int := -1

/-- Typed message payload at one `(version, subsequence)` slot.  The cursor
distinguishes the `EMPTY_VERSION_MESSAGE` kind; all other payloads are opaque
to it. -/
inductive Message where
  | mutation (payload : Nat)
  | emptyVersion
  | spanContext (payload : Nat)
deriving DecidableEq, Repr

instance : Inhabited Message := ⟨Message.emptyVersion⟩

/-- Mirrors `message.getType() == Message::Type::EMPTY_VERSION_MESSAGE`. -/
def Message.isEmptyVersionMessage : Message → Bool
  | .emptyVersion => true
  | _ => false

/-- The `(version, subsequence, message)` triple (`VersionSubsequenceMessage`),
the fundamental unit of iteration. -/
structure VersionSubsequenceMessage where
  version : Int
  subsequence : Nat
  message : Message
deriving DecidableEq, Repr

instance : Inhabited VersionSubsequenceMessage := ⟨⟨0, 0, Message.emptyVersion⟩⟩

/-- Key of a triple: the `(version, subsequence)` pair. -/
def VersionSubsequenceMessage.key (m : VersionSubsequenceMessage) : Int × Nat :=
  (m.version, m.subsequence)

/-- Strict lexicographic order on `(version, subsequence)` keys. -/
def lexLt (a b : Int × Nat) : Prop :=
  a.1 < b.1 ∨ (a.1 = b.1 ∧ a.2 < b.2)

instance (a b : Int × Nat) : Decidable (lexLt a b) := by
  unfold lexLt; infer_instance

theorem lexLt_trans {a b c : Int × Nat} (h₁ : lexLt a b) (h₂ : lexLt b c) :
    lexLt a c := by
  rcases h₁ with h₁ | ⟨h₁, h₁s⟩ <;> rcases h₂ with h₂ | ⟨h₂, h₂s⟩ <;>
    unfold lexLt <;> first
      | exact Or.inl (by omega)
      | exact Or.inr (by omega)

theorem lexLt_irrefl (a : Int × Nat) : ¬ lexLt a a := by
  unfold lexLt; omega

theorem lexLt_total {a b : Int × Nat} (h : a ≠ b) : lexLt a b ∨ lexLt b a := by
  unfold lexLt
  by_cases hv : a.1 = b.1
  · have hs : a.2 ≠ b.2 := by
      intro hs; exact h (Prod.ext hv hs)
    omega
  · omega

/-- The peek reply, with its payload already deserialized into the ordered list
of triples the `SubsequencedMessageDeserializer` would yield (the deserializer
is constructed with `reportEmptyVersion = true` inside the cursor, so the list
includes the synthetic `EmptyVersion` records). -/
structure TLogPeekReply where
  data : List VersionSubsequenceMessage
  endVersion : Int
  maxKnownVersion : Int
  minKnownCommittedVersion : Int
deriving DecidableEq, Repr

/-- The fields of the peek request that `peekRemote` fills in. -/
structure TLogPeekRequest where
  beginVersion : Int
  endVersion : Int
  storageTeamID : Nat
deriving DecidableEq, Repr

/-- State of a leaf cursor (`StorageTeamPeekCursor`): the deserializer buffer
is the list of triples of the last reply and `iter` the position of
`wrappedDeserializerIter` in it. -/
structure StorageTeamPeekCursor where
  storageTeamID : Nat
  beginVersion : Int
  reportEmptyVersion : Bool
  lastVersion : Int
  maxKnownVersion : Int
  minKnownCommittedVersion : Int
  buffer : List VersionSubsequenceMessage
  iter : Nat
deriving DecidableEq, Repr

/-- The constructor `StorageTeamPeekCursor::StorageTeamPeekCursor`: the
deserializer starts on the header-only empty buffer and
`lastVersion = beginVersion - 1`.  The watermark members are declared in the
header (not part of the consumed source); they start at `invalidVersion`. -/
def mkStorageTeamPeekCursor (beginVersion : Int) (storageTeamID : Nat)
    (reportEmptyVersion : Bool) : StorageTeamPeekCursor :=
  { storageTeamID := storageTeamID
    beginVersion := beginVersion
    reportEmptyVersion := reportEmptyVersion
    lastVersion := beginVersion - 1
    maxKnownVersion := invalidVersion
    minKnownCommittedVersion := invalidVersion
    buffer := []
    iter := 0 }

/-- First index `j ≥ i` of the buffer holding a non-`EmptyVersion` record
(or the index where the scan stopped at the end): the loop inside
`StorageTeamPeekCursor::hasRemainingImpl`. -/
def skipIdx (buf : List VersionSubsequenceMessage) (i : Nat) : Nat :=
  if h : i < buf.length then
    if (buf.get ⟨i, h⟩).message.isEmptyVersionMessage then skipIdx buf (i + 1) else i
  else i
termination_by buf.length - i

/-- State effect of `hasRemainingImpl`: when `reportEmptyVersion` is unset the
iterator is advanced past `EMPTY_VERSION_MESSAGE` records (the member is
mutable, so the advance persists). -/
def StorageTeamPeekCursor.hasRemainingState (c : StorageTeamPeekCursor) :
    StorageTeamPeekCursor :=
  if c.reportEmptyVersion then c else { c with iter := skipIdx c.buffer c.iter }

/-- Result of `hasRemainingImpl`: `wrappedDeserializerIter != deserializer.end()`
after the optional skipping. -/
def StorageTeamPeekCursor.hasRemaining (c : StorageTeamPeekCursor) : Bool :=
  decide (c.hasRemainingState.iter < c.buffer.length)

/-- Mirrors `getImpl`: dereference the deserializer iterator (out-of-range
dereference is undefined behaviour in the source; the model returns the
default triple there, and every theorem guards the access). -/
def StorageTeamPeekCursor.get (c : StorageTeamPeekCursor) : VersionSubsequenceMessage :=
  c.buffer.getD c.iter default

/-- Mirrors `nextImpl`: `++wrappedDeserializerIter`. -/
def StorageTeamPeekCursor.next (c : StorageTeamPeekCursor) : StorageTeamPeekCursor :=
  { c with iter := c.iter + 1 }

/-- Mirrors `resetImpl`: rewind the iterator to the buffer start. -/
def StorageTeamPeekCursor.reset (c : StorageTeamPeekCursor) : StorageTeamPeekCursor :=
  { c with iter := 0 }

/-- Mirrors `VersionSubsequencePeekCursorBase::getVersion`. -/
def StorageTeamPeekCursor.getVersion (c : StorageTeamPeekCursor) : Int :=
  c.get.version

/-- Mirrors `VersionSubsequencePeekCursorBase::getSubsequence`. -/
def StorageTeamPeekCursor.getSubsequence (c : StorageTeamPeekCursor) : Nat :=
  c.get.subsequence

/-- Key of the triple the cursor currently exposes. -/
def StorageTeamPeekCursor.curKey (c : StorageTeamPeekCursor) : Int × Nat :=
  (c.getVersion, c.getSubsequence)

/-- The request built by `details::StorageTeamPeekCursor::peekRemote`
(lines 105-108): `beginVersion` is `*pLastVersion`, `endVersion` is
`invalidVersion` (extract all data). -/
def StorageTeamPeekCursor.peekRequest (c : StorageTeamPeekCursor) : TLogPeekRequest :=
  { beginVersion := c.lastVersion
    endVersion := invalidVersion
    storageTeamID := c.storageTeamID }

/-- Effect of `details::StorageTeamPeekCursor::peekRemote` on the cursor state
given the remote's reply: reset the deserializer onto the reply payload; if it
is empty report `false` without touching the versions, otherwise install the
reply's watermarks, set `lastVersion = reply.endVersion` and report `true`. -/
def StorageTeamPeekCursor.peekRemote (c : StorageTeamPeekCursor) (reply : TLogPeekReply) :
    StorageTeamPeekCursor × Bool :=
  let c₁ : StorageTeamPeekCursor := { c with buffer := reply.data, iter := 0 }
  if reply.data.isEmpty then
    (c₁, false)
  else
    ({ c₁ with
        maxKnownVersion := reply.maxKnownVersion
        minKnownCommittedVersion := reply.minKnownCommittedVersion
        lastVersion := reply.endVersion }, true)

/-- Mirrors `VersionSubsequencePeekCursorBase::operatorSpaceship`. -/
def StorageTeamPeekCursor.operatorSpaceship (c other : StorageTeamPeekCursor) : Int :=
  if c.getVersion < other.getVersion then -1
  else if c.getVersion > other.getVersion then 1
  else if c.getSubsequence < other.getSubsequence then -1
  else if c.getSubsequence > other.getSubsequence then 1
  else 0

/-- Getter declared in the cursor header.  Modelled from the spec: the header
of `StorageTeamPeekCursor` is not part of the consumed source; per the spec's
`report_empty_version_flag` (section 3 and 4.2, suppression of `EmptyVersion`
records), empty versions are ignored exactly when the flag is unset. -/
def StorageTeamPeekCursor.isEmptyVersionsIgnored (c : StorageTeamPeekCursor) : Bool :=
  !c.reportEmptyVersion

theorem skipIdx_ge (buf : List VersionSubsequenceMessage) (i : Nat) : i ≤ skipIdx buf i := by
  unfold skipIdx
  split
  · split
    · exact Nat.le_of_succ_le (skipIdx_ge buf (i + 1))
    · exact Nat.le_refl i
  · exact Nat.le_refl i
termination_by buf.length - i

theorem hasRemainingState_buffer (c : StorageTeamPeekCursor) :
    c.hasRemainingState.buffer = c.buffer := by
  unfold StorageTeamPeekCursor.hasRemainingState; split <;> rfl

theorem hasRemainingState_iter_ge (c : StorageTeamPeekCursor) :
    c.iter ≤ c.hasRemainingState.iter := by
  unfold StorageTeamPeekCursor.hasRemainingState
  split
  · exact Nat.le_refl _
  · exact skipIdx_ge c.buffer c.iter

/-- When the cursor reports empty versions, `hasRemainingImpl` has no state
effect (the skip loop is not entered). -/
theorem hasRemainingState_report (c : StorageTeamPeekCursor)
    (h : c.reportEmptyVersion = true) : c.hasRemainingState = c := by
  unfold StorageTeamPeekCursor.hasRemainingState
  simp [h]

/-- Iterator scan performed on each live leaf by the merge cursor's
`resetImpl` (lines 693-696): advance while the leaf has a triple whose
version is below the restored `currentVersion`.  Each `!= end` comparison
goes through `hasRemaining`, so its skip effect is part of the scan. -/
def StorageTeamPeekCursor.scanToVersion (c : StorageTeamPeekCursor) (cv : Int) :
    StorageTeamPeekCursor :=
  if h : c.hasRemainingState.iter < c.hasRemainingState.buffer.length ∧
      c.hasRemainingState.get.version < cv then
    c.hasRemainingState.next.scanToVersion cv
  else c.hasRemainingState
termination_by c.buffer.length - c.iter
decreasing_by
  simp only [StorageTeamPeekCursor.next, hasRemainingState_buffer]
  have h₁ := hasRemainingState_iter_ge c
  have h₂ := h.1
  rw [hasRemainingState_buffer] at h₂
  omega

/-! ### The broadcast merge cursor

`BroadcastedStorageTeamPeekCursorBase` and its two concrete variants.  The
`std::map` of leaf cursors is a key-sorted association list; the cursor
containers hold the storage-team ids of the leaf cursors they reference
(the C++ containers hold raw pointers into that map, so a team id identifies
the pointee uniquely).  `OrderedCursorContainer` is a binary min-heap under
`heapElementComparator` (`*e1 > *e2`, i.e. `operatorSpaceship` on the live
cursors); its observable contract — `front` is a minimal element, `push`
inserts, `pop` removes the front — is modelled by a list kept sorted by the
cursors' `(version, subsequence)` keys.  `UnorderedCursorContainer` is a FIFO
deque. -/

/-- Insertion into `std::set<StorageTeamID>` (kept sorted, no duplicates). -/
def setInsert (t : Nat) : List Nat → List Nat
  | [] => [t]
  | x :: xs => if t < x then t :: x :: xs else if t = x then x :: xs else x :: setInsert t xs

/-- Insertion into the key-sorted association list modelling
`std::map<StorageTeamID, std::shared_ptr<StorageTeamPeekCursor>>`. -/
def minsert (t : Nat) (c : StorageTeamPeekCursor) :
    List (Nat × StorageTeamPeekCursor) → List (Nat × StorageTeamPeekCursor)
  | [] => [(t, c)]
  | p :: ps => if t < p.1 then (t, c) :: p :: ps else p :: minsert t c ps

/-- Insertion into the ordered cursor container, keyed by the live cursors'
`(version, subsequence)` keys (the observable contract of `std::push_heap`
under `heapElementComparator`). -/
def orderedInsert (key : Nat → Int × Nat) (t : Nat) : List Nat → List Nat
  | [] => [t]
  | x :: xs => if lexLt (key t) (key x) then t :: x :: xs else x :: orderedInsert key t xs

/-- State of `BroadcastedStorageTeamPeekCursorBase`; `ordered` selects the
container discipline (`_Ordered` vs `_Unordered` subclass). -/
structure MergeState where
  ordered : Bool
  mapper : List (Nat × StorageTeamPeekCursor)
  container : List Nat
  emptyCursorStorageTeamIDs : List Nat
  retiredCursorStorageTeamIDs : List Nat
  currentVersion : Int
  maxKnownVersion : Int
  minKnownCommittedVersion : Int
  needSnapshot : Bool
  snapshotVersion : Int
  snapshotContainer : List Nat
deriving DecidableEq, Repr

/-- Current `(version, subsequence)` key of the leaf owned by team `t`
(the heap comparator dereferences the live cursor). -/
def MergeState.keyOf (s : MergeState) (t : Nat) : Int × Nat :=
  match s.mapper.lookup t with
  | some c => c.curKey
  | none => (0, 0)

/-- Mirrors `CursorContainerBase::push` for the active variant. -/
def MergeState.push (s : MergeState) (t : Nat) : MergeState :=
  if s.ordered then { s with container := orderedInsert s.keyOf t s.container }
  else { s with container := s.container ++ [t] }

/-- Replace team `t`'s leaf cursor (the C++ mutates the pointee in place). -/
def MergeState.updateCursor (s : MergeState) (t : Nat) (c : StorageTeamPeekCursor) :
    MergeState :=
  { s with mapper := s.mapper.map (fun p => if p.1 = t then (t, c) else p) }

/-- The walk over all leaves at the top of `tryFillCursorContainer`
(lines 553-571): record empty leaves, take the first live leaf's version as
`currentVersion`, and require every later live leaf to agree
(`UNSTOPPABLE_ASSERT(currentVersion == cursorVersion)`, modelled as `none`).
Returns the updated leaves (the `hasRemaining` calls may advance iterators),
the teams inserted into the empty set, the computed version and the final
`isFirstElement` flag. -/
def tffScan (cv : Int) (first : Bool) :
    List (Nat × StorageTeamPeekCursor) →
    Option (List (Nat × StorageTeamPeekCursor) × List Nat × Int × Bool)
  | [] => some ([], [], cv, first)
  | (t, c) :: rest =>
    let c₁ := c.hasRemainingState
    if c₁.iter < c₁.buffer.length then
      let cursorVersion := c₁.getVersion
      if first then
        match tffScan cursorVersion false rest with
        | none => none
        | some (m, es, cv₂, f₂) => some ((t, c₁) :: m, es, cv₂, f₂)
      else if cv = cursorVersion then
        match tffScan cv first rest with
        | none => none
        | some (m, es, cv₂, f₂) => some ((t, c₁) :: m, es, cv₂, f₂)
      else none
    else
      match tffScan cv first rest with
      | none => none
      | some (m, es, cv₂, f₂) => some ((t, c₁) :: m, t :: es, cv₂, f₂)

/-- Mirrors `BroadcastedStorageTeamPeekCursorBase::tryFillCursorContainer`.
The two entry `ASSERT`s and the same-version `UNSTOPPABLE_ASSERT` yield
`none`; otherwise the result is the new state together with the boolean the
function returns. -/
def MergeState.tryFillCursorContainer (s : MergeState) : Option (MergeState × Bool) :=
  if s.mapper.length = 0 then none
  else if ¬ s.container.isEmpty then none
  else
    let lastVersion := s.currentVersion
    match tffScan invalidVersion true s.mapper with
    | none => none
    | some (mapper₁, newEmpty, cv, _) =>
      let emptySet₁ := newEmpty.foldl (fun es t => setInsert t es) s.emptyCursorStorageTeamIDs
      let retiredAndAllConsumed := emptySet₁.filter
        (fun t => decide (t ∈ s.retiredCursorStorageTeamIDs))
      let emptySet₂ := emptySet₁.filter (fun t => decide (t ∉ retiredAndAllConsumed))
      let s₁ := { s with
        mapper := mapper₁
        emptyCursorStorageTeamIDs := emptySet₂
        currentVersion := cv }
      if ¬ emptySet₂.isEmpty then
        if s.mapper.length = 1 then some ({ s₁ with currentVersion := lastVersion }, false)
        else some (s₁, false)
      else if s.mapper.length = 0 ∨ cv = invalidVersion then some (s₁, false)
      else
        let s₂ := mapper₁.foldl
          (fun acc p =>
            if p.1 ∉ emptySet₂ ∧ p.1 ∉ retiredAndAllConsumed then acc.push p.1 else acc)
          s₁
        some (s₂, true)

/-- Mirrors `BroadcastedStorageTeamPeekCursorBase::getImpl`:
`pCursorContainer->front()->get()` (undefined on an empty container; the
model returns the default triple there). -/
def MergeState.get (s : MergeState) : VersionSubsequenceMessage :=
  match s.container with
  | [] => default
  | t :: _ =>
    match s.mapper.lookup t with
    | some c => c.get
    | none => default

/-- Team id owning the triple `getImpl` exposes. -/
def MergeState.frontTeam (s : MergeState) : Nat := s.container.headD 0

/-- Body of `BroadcastedStorageTeamPeekCursor_Ordered::nextImpl` after the
refill check: pop the front cursor, advance it, and push it back when it
still has a triple at `currentVersion` (lines 709-715). -/
def MergeState.nextOrderedStep (s₀ : MergeState) : Option MergeState :=
  match s₀.container with
  | [] => none
  | t :: restC =>
    match s₀.mapper.lookup t with
    | none => none
    | some c =>
      let s₁ := { s₀ with container := restC }
      let c₂ := c.next.hasRemainingState
      let s₂ := s₁.updateCursor t c₂
      if c₂.iter < c₂.buffer.length ∧ c₂.getVersion = s₂.currentVersion then
        some (s₂.push t)
      else some s₂

/-- Body of `BroadcastedStorageTeamPeekCursor_Unordered::nextImpl` after the
refill check: advance the front cursor and pop it once it leaves
`currentVersion` or runs out (lines 724-728). -/
def MergeState.nextUnorderedStep (s₀ : MergeState) : Option MergeState :=
  match s₀.container with
  | [] => none
  | t :: restC =>
    match s₀.mapper.lookup t with
    | none => none
    | some c =>
      let c₂ := c.next.hasRemainingState
      let s₂ := s₀.updateCursor t c₂
      if ¬ c₂.iter < c₂.buffer.length ∨ c₂.getVersion ≠ s₂.currentVersion then
        some { s₂ with container := restC }
      else some s₂

/-- Mirrors `BroadcastedStorageTeamPeekCursor_Ordered::nextImpl` (the
`ASSERT(false)` on an empty, unfillable cursor yields `none`). -/
def MergeState.nextOrdered (s : MergeState) : Option MergeState :=
  if s.container.isEmpty then
    match s.tryFillCursorContainer with
    | some (s₀, true) => s₀.nextOrderedStep
    | _ => none
  else s.nextOrderedStep

/-- Mirrors `BroadcastedStorageTeamPeekCursor_Unordered::nextImpl`. -/
def MergeState.nextUnordered (s : MergeState) : Option MergeState :=
  if s.container.isEmpty then
    match s.tryFillCursorContainer with
    | some (s₀, true) => s₀.nextUnorderedStep
    | _ => none
  else s.nextUnorderedStep

/-- Dispatch `nextImpl` to the active variant. -/
def MergeState.nextM (s : MergeState) : Option MergeState :=
  if s.ordered then s.nextOrdered else s.nextUnordered

/-- Mirrors `BroadcastedStorageTeamPeekCursorBase::hasRemainingImpl`:
refill the container when empty, then capture the lazy snapshot if a
`remoteMoreAvailable` requested one. -/
def MergeState.hasRemainingM (s : MergeState) : Option (MergeState × Bool) :=
  let r : Option (MergeState × Bool) :=
    if s.container.isEmpty then s.tryFillCursorContainer else some (s, true)
  match r with
  | none => none
  | some (s₁, b) =>
    if s₁.needSnapshot then
      some ({ s₁ with
        needSnapshot := false
        snapshotVersion := s₁.currentVersion
        snapshotContainer := s₁.container }, b)
    else some (s₁, b)

/-- Mirrors `BroadcastedStorageTeamPeekCursorBase::resetImpl`. -/
def MergeState.resetM (s : MergeState) : MergeState :=
  if s.snapshotVersion = invalidVersion then s
  else
    let s₁ := { s with
      currentVersion := s.snapshotVersion
      container := s.snapshotContainer
      emptyCursorStorageTeamIDs := [] }
    { s₁ with mapper := s₁.mapper.map (fun p =>
        if p.1 ∈ s.retiredCursorStorageTeamIDs then p
        else (p.1, p.2.reset.scanToVersion s₁.currentVersion)) }

/-- Mirrors `BroadcastedStorageTeamPeekCursorBase::addCursorImpl` (and the
base `StorageTeamIDCursorMapper::addCursorImpl` it calls); both `ASSERT`s
yield `none`. -/
def MergeState.addCursor (s : MergeState) (c : StorageTeamPeekCursor) : Option MergeState :=
  if c.isEmptyVersionsIgnored then none
  else
    let t := c.storageTeamID
    let s₁ := { s with emptyCursorStorageTeamIDs := setInsert t s.emptyCursorStorageTeamIDs }
    if (s₁.mapper.lookup t).isSome then none
    else some { s₁ with mapper := minsert t c s₁.mapper }

/-- Mirrors `BroadcastedStorageTeamPeekCursorBase::removeCursorImpl` (and the
`removeCursor` wrapper's existence `ASSERT`). -/
def MergeState.removeCursor (s : MergeState) (t : Nat) : Option MergeState :=
  if (s.mapper.lookup t).isNone then none
  else some { s with
    container := s.container.filter (fun x => decide (x ≠ t))
    emptyCursorStorageTeamIDs := s.emptyCursorStorageTeamIDs.filter (fun x => decide (x ≠ t))
    mapper := s.mapper.filter (fun p => decide (p.1 ≠ t)) }

/-- Net outcome of `peekSingleCursor` for one leaf: either some retry ended
with a non-empty reply (`filled`), or the remote raised `end_of_stream`
(`eos`), or `MERGE_CURSOR_RETRY_TIMES` attempts all came back empty
(`timeout`; each empty attempt resets the leaf's deserializer onto the empty
payload). -/
inductive PeekOutcome where
  | filled (reply : TLogPeekReply)
  | eos
  | timeout

/-- The per-team loop of `details::BroadcastedStorageTeamPeekCursor::peekRemote`
(lines 497-522): walk the empty set, apply each team's outcome, erase the
non-timeout teams from the empty set, retire the `eos` teams (asserting they
were not already retired) and clear the ready flag on any timeout.  Returns
the state with leaves and retired set updated, the surviving empty set, and
`cursorsReady`. -/
def peekLoop (outcome : Nat → PeekOutcome) :
    List Nat → MergeState → Bool → Option (MergeState × List Nat × Bool)
  | [], s, ready => some (s, [], ready)
  | t :: ts, s, ready =>
    match s.mapper.lookup t with
    | none => none
    | some c =>
      match outcome t with
      | .eos =>
        if t ∈ s.retiredCursorStorageTeamIDs then none
        else
          peekLoop outcome ts
            { s with retiredCursorStorageTeamIDs := setInsert t s.retiredCursorStorageTeamIDs }
            ready
      | .timeout =>
        match peekLoop outcome ts (s.updateCursor t { c with buffer := [], iter := 0 }) false with
        | none => none
        | some (s₂, es, r) => some (s₂, t :: es, r)
      | .filled reply =>
        let pr := c.peekRemote reply
        if pr.2 then peekLoop outcome ts (s.updateCursor t pr.1) ready
        else
          match peekLoop outcome ts (s.updateCursor t pr.1) false with
          | none => none
          | some (s₂, es, r) => some (s₂, t :: es, r)

/-- Mirrors `details::BroadcastedStorageTeamPeekCursor::peekRemote`: throw
`end_of_stream` (modelled `none`) on an empty `emptyCursorStorageTeamIDs`,
run the concurrent per-team peeks, and on full readiness raise the two
watermarks to the maxima over the peeked leaves. -/
def MergeState.mergePeekRemote (s : MergeState) (outcome : Nat → PeekOutcome) :
    Option (MergeState × Bool) :=
  if s.emptyCursorStorageTeamIDs.isEmpty then none
  else
    match peekLoop outcome s.emptyCursorStorageTeamIDs s true with
    | none => none
    | some (s₁, es, ready) =>
      if ¬ ready then some ({ s₁ with emptyCursorStorageTeamIDs := es }, false)
      else
        some (s.emptyCursorStorageTeamIDs.foldl
          (fun acc t =>
            match acc.mapper.lookup t with
            | some c => { acc with
                maxKnownVersion := max acc.maxKnownVersion c.maxKnownVersion
                minKnownCommittedVersion :=
                  max acc.minKnownCommittedVersion c.minKnownCommittedVersion }
            | none => acc)
          { s₁ with emptyCursorStorageTeamIDs := es }, true)

/-- Mirrors `BroadcastedStorageTeamPeekCursorBase::remoteMoreAvailableImpl`:
request a lazy snapshot, drop every fully retired leaf, clear the retired
set, then run the remote peek. -/
def MergeState.remoteMoreAvailable (s : MergeState) (outcome : Nat → PeekOutcome) :
    Option (MergeState × Bool) :=
  match s.retiredCursorStorageTeamIDs.foldlM (fun acc t => acc.removeCursor t)
      { s with needSnapshot := true } with
  | none => none
  | some s₂ => MergeState.mergePeekRemote { s₂ with retiredCursorStorageTeamIDs := [] } outcome

/-- Fueled local drain of the merge cursor: the consumer loop
`for (vsm : *cursor) { ... }` between two `remoteMoreAvailable` calls.  Each
iteration asks `hasRemaining`, reads `get()` (tagging it with the team id of
the container front it came from) and advances with `next()`.  Stops cleanly
when `hasRemaining` is false; `none` on an assertion failure. -/
def MergeState.drain :
    Nat → MergeState → Option (List (Nat × VersionSubsequenceMessage) × MergeState)
  | 0, s => some ([], s)
  | fuel + 1, s =>
    match s.hasRemainingM with
    | none => none
    | some (s₁, false) => some ([], s₁)
    | some (s₁, true) =>
      let t := s₁.frontTeam
      let v := s₁.get
      match s₁.nextM with
      | none => none
      | some s₂ =>
        match MergeState.drain fuel s₂ with
        | none => none
        | some (out, s₃) => some ((t, v) :: out, s₃)

/-! ### Small facts about the set and map helpers -/

theorem mem_setInsert_self (t : Nat) (l : List Nat) : t ∈ setInsert t l := by
  induction l with
  | nil => simp [setInsert]
  | cons x xs ih =>
    unfold setInsert
    by_cases h₁ : t < x
    · simp [h₁]
    · by_cases h₂ : t = x
      · simp [h₁, h₂]
      · simp [h₁, h₂, ih]

theorem mem_setInsert_iff (t u : Nat) (l : List Nat) :
    u ∈ setInsert t l ↔ u = t ∨ u ∈ l := by
  induction l with
  | nil => simp [setInsert]
  | cons x xs ih =>
    unfold setInsert
    by_cases h₁ : t < x
    · simp [h₁]
    · by_cases h₂ : t = x
      · subst h₂
        simp [h₁]
      · simp [h₁, h₂, ih]
        tauto

theorem lookup_minsert_self (t : Nat) (c : StorageTeamPeekCursor)
    (m : List (Nat × StorageTeamPeekCursor)) (h : m.lookup t = none) :
    (minsert t c m).lookup t = some c := by
  induction m with
  | nil => simp [minsert, List.lookup]
  | cons p ps ih =>
    unfold minsert
    simp only [List.lookup] at h
    by_cases hpt : t = p.1
    · simp [hpt] at h
    · have hne : (t == p.1) = false := by simp [hpt]
      rw [hne] at h
      by_cases hlt : t < p.1
      · simp [hlt, List.lookup]
      · simp only [hlt, if_false]
        simp [List.lookup, hne, ih h]

/-! ### Claim theorems (leaf cursor) -/

/-- Claim C5 (code bug): the claim — matching the comment on
`pLastVersion` (lines 62-63) and the constructor's `lastVersion =
beginVersion - 1` design — says every peek request carries
`begin = last_version + 1`, so the first peek of a cursor built at
`begin_version = 5` would request 5, and after a non-empty reply with
`end_version = 10` the next peek would request 11.  The code instead sets
`request.beginVersion = *pLastVersion` (line 106): the first request is 4
(`beginVersion - 1`) and the follow-up request is 10.  This theorem evaluates
the embedded code at those failing inputs. -/
theorem peekRequest_uses_lastVersion_without_increment :
    (mkStorageTeamPeekCursor 5 0 true).peekRequest.beginVersion = 4 ∧
    ((mkStorageTeamPeekCursor 5 0 true).peekRemote
        ⟨[⟨5, 1, Message.mutation 0⟩], 10, 11, 9⟩).1.peekRequest.beginVersion = 10 := by
  decide

/-- Claim C6 (amended): `operatorSpaceship` compares two leaf cursors
lexicographically on `(version, subsequence)` — and nothing else: it returns
-1, 0, 1 exactly according to the key order, so when both components are
equal it reports 0 regardless of storage-team identity (there is no
tie-break). -/
theorem operatorSpaceship_lexicographic (c other : StorageTeamPeekCursor) :
    (c.operatorSpaceship other = -1 ↔ lexLt c.curKey other.curKey) ∧
    (c.operatorSpaceship other = 0 ↔ c.curKey = other.curKey) ∧
    (c.operatorSpaceship other = 1 ↔ lexLt other.curKey c.curKey) := by
  unfold StorageTeamPeekCursor.operatorSpaceship StorageTeamPeekCursor.curKey lexLt
  refine ⟨?_, ?_, ?_⟩ <;>
    · split_ifs <;> simp_all [Prod.ext_iff] <;> omega

/-- Claim C6 (counterexample): two leaf cursors of different storage teams
(and different buffered payloads) whose current `(version, subsequence)`
keys coincide compare as equal (`operatorSpaceship` returns 0): the claimed
storage-team tie-break does not exist. -/
theorem operatorSpaceship_equates_distinct_cursors :
    ((⟨0, 1, true, 0, 0, 0, [⟨5, 1, Message.mutation 0⟩], 0⟩ :
        StorageTeamPeekCursor).operatorSpaceship
      ⟨1, 1, true, 0, 0, 0, [⟨5, 1, Message.mutation 1⟩], 0⟩ = 0) ∧
    (⟨0, 1, true, 0, 0, 0, [⟨5, 1, Message.mutation 0⟩], 0⟩ : StorageTeamPeekCursor) ≠
      ⟨1, 1, true, 0, 0, 0, [⟨5, 1, Message.mutation 1⟩], 0⟩ ∧
    (⟨0, 1, true, 0, 0, 0, [⟨5, 1, Message.mutation 0⟩], 0⟩ :
        StorageTeamPeekCursor).storageTeamID ≠
      (⟨1, 1, true, 0, 0, 0, [⟨5, 1, Message.mutation 1⟩], 0⟩ :
        StorageTeamPeekCursor).storageTeamID := by
  decide

/-- Claim C9: when the deserialized reply is empty, the leaf `peekRemote`
returns `false` and leaves `lastVersion`, `maxKnownVersion` and
`minKnownCommittedVersion` unchanged; on a non-empty reply it returns `true`,
sets `lastVersion = reply.endVersion` and installs the reply's two
watermarks. -/
theorem peekRemote_empty_frame_nonempty_update
    (c : StorageTeamPeekCursor) (reply : TLogPeekReply) :
    (reply.data = [] →
      (c.peekRemote reply).2 = false ∧
      (c.peekRemote reply).1.lastVersion = c.lastVersion ∧
      (c.peekRemote reply).1.maxKnownVersion = c.maxKnownVersion ∧
      (c.peekRemote reply).1.minKnownCommittedVersion = c.minKnownCommittedVersion) ∧
    (reply.data ≠ [] →
      (c.peekRemote reply).2 = true ∧
      (c.peekRemote reply).1.lastVersion = reply.endVersion ∧
      (c.peekRemote reply).1.maxKnownVersion = reply.maxKnownVersion ∧
      (c.peekRemote reply).1.minKnownCommittedVersion = reply.minKnownCommittedVersion) := by
  unfold StorageTeamPeekCursor.peekRemote
  constructor
  · intro h
    simp [h]
  · intro h
    simp [h]

/-- Witness for C9 at concrete inputs: an empty reply and a one-triple
reply. -/
theorem peekRemote_empty_frame_nonempty_update_witness :
    (((mkStorageTeamPeekCursor 3 7 true).peekRemote ⟨[], 9, 9, 9⟩).2 = false ∧
      ((mkStorageTeamPeekCursor 3 7 true).peekRemote ⟨[], 9, 9, 9⟩).1.lastVersion =
        (mkStorageTeamPeekCursor 3 7 true).lastVersion ∧
      ((mkStorageTeamPeekCursor 3 7 true).peekRemote ⟨[], 9, 9, 9⟩).1.maxKnownVersion =
        (mkStorageTeamPeekCursor 3 7 true).maxKnownVersion ∧
      ((mkStorageTeamPeekCursor 3 7 true).peekRemote ⟨[], 9, 9, 9⟩).1.minKnownCommittedVersion =
        (mkStorageTeamPeekCursor 3 7 true).minKnownCommittedVersion) ∧
    (((mkStorageTeamPeekCursor 3 7 true).peekRemote
        ⟨[⟨3, 1, Message.mutation 0⟩], 4, 8, 6⟩).2 = true ∧
      ((mkStorageTeamPeekCursor 3 7 true).peekRemote
        ⟨[⟨3, 1, Message.mutation 0⟩], 4, 8, 6⟩).1.lastVersion = 4 ∧
      ((mkStorageTeamPeekCursor 3 7 true).peekRemote
        ⟨[⟨3, 1, Message.mutation 0⟩], 4, 8, 6⟩).1.maxKnownVersion = 8 ∧
      ((mkStorageTeamPeekCursor 3 7 true).peekRemote
        ⟨[⟨3, 1, Message.mutation 0⟩], 4, 8, 6⟩).1.minKnownCommittedVersion = 6) :=
  ⟨(peekRemote_empty_frame_nonempty_update (mkStorageTeamPeekCursor 3 7 true)
      ⟨[], 9, 9, 9⟩).1 rfl,
    (peekRemote_empty_frame_nonempty_update (mkStorageTeamPeekCursor 3 7 true)
      ⟨[⟨3, 1, Message.mutation 0⟩], 4, 8, 6⟩).2 (by decide)⟩

/-- Claim C10: `addCursorImpl` asserts the new leaf does not suppress
`EmptyVersion` messages (a leaf with `reportEmptyVersion` unset fails the
assertion), and a successfully added leaf is registered in the empty set —
hence it is first read only after a refill RPC — and in the mapper. -/
theorem addCursor_requires_reportEmptyVersion (s : MergeState) (c : StorageTeamPeekCursor) :
    (c.reportEmptyVersion = false → s.addCursor c = none) ∧
    (c.reportEmptyVersion = true → s.mapper.lookup c.storageTeamID = none →
      ∃ s', s.addCursor c = some s' ∧
        c.storageTeamID ∈ s'.emptyCursorStorageTeamIDs ∧
        s'.mapper.lookup c.storageTeamID = some c) := by
  constructor
  · intro h
    simp [MergeState.addCursor, StorageTeamPeekCursor.isEmptyVersionsIgnored, h]
  · intro h hnone
    have hig : c.isEmptyVersionsIgnored = false := by
      simp [StorageTeamPeekCursor.isEmptyVersionsIgnored, h]
    refine ⟨{ s with
        emptyCursorStorageTeamIDs := setInsert c.storageTeamID s.emptyCursorStorageTeamIDs
        mapper := minsert c.storageTeamID c s.mapper }, ?_, ?_, ?_⟩
    · unfold MergeState.addCursor
      rw [hig]
      simp only [Bool.false_eq_true, if_false]
      rw [hnone]
      simp
    · exact mem_setInsert_self _ _
    · exact lookup_minsert_self _ _ _ hnone

/-- Witness for C10: a suppressing leaf is rejected, a reporting leaf lands
in the empty set and the mapper of an initially empty merge cursor. -/
theorem addCursor_requires_reportEmptyVersion_witness :
    ((⟨true, [], [], [], [], -1, -1, -1, false, -1, []⟩ : MergeState).addCursor
        (mkStorageTeamPeekCursor 1 4 false) = none) ∧
    (∃ s', (⟨true, [], [], [], [], -1, -1, -1, false, -1, []⟩ : MergeState).addCursor
        (mkStorageTeamPeekCursor 1 4 true) = some s' ∧
      (mkStorageTeamPeekCursor 1 4 true).storageTeamID ∈ s'.emptyCursorStorageTeamIDs ∧
      s'.mapper.lookup (mkStorageTeamPeekCursor 1 4 true).storageTeamID =
        some (mkStorageTeamPeekCursor 1 4 true)) :=
  ⟨(addCursor_requires_reportEmptyVersion _ _).1 rfl,
    (addCursor_requires_reportEmptyVersion _ _).2 rfl rfl⟩

/-! ### Watermark monotonicity (claim C4) -/

theorem removeCursor_watermarks (s : MergeState) (t : Nat) (s' : MergeState)
    (h : s.removeCursor t = some s') :
    s'.maxKnownVersion = s.maxKnownVersion ∧
    s'.minKnownCommittedVersion = s.minKnownCommittedVersion := by
  unfold MergeState.removeCursor at h
  split at h
  · exact absurd h (by simp)
  · cases h; exact ⟨rfl, rfl⟩

theorem removeAll_watermarks (l : List Nat) (s s' : MergeState)
    (h : l.foldlM (fun acc t => acc.removeCursor t) s = some s') :
    s'.maxKnownVersion = s.maxKnownVersion ∧
    s'.minKnownCommittedVersion = s.minKnownCommittedVersion := by
  induction l generalizing s with
  | nil => simp [List.foldlM] at h; cases h; exact ⟨rfl, rfl⟩
  | cons t ts ih =>
    simp only [List.foldlM] at h
    cases hr : s.removeCursor t with
    | none => rw [hr] at h; exact absurd h (by simp)
    | some s₁ =>
      rw [hr] at h
      simp only [bind, Option.bind] at h
      have h₁ := removeCursor_watermarks s t s₁ hr
      have h₂ := ih s₁ h
      exact ⟨h₂.1.trans h₁.1, h₂.2.trans h₁.2⟩

theorem peekLoop_watermarks (outcome : Nat → PeekOutcome) (l : List Nat)
    (s : MergeState) (ready : Bool) (r : MergeState × List Nat × Bool)
    (h : peekLoop outcome l s ready = some r) :
    r.1.maxKnownVersion = s.maxKnownVersion ∧
    r.1.minKnownCommittedVersion = s.minKnownCommittedVersion := by
  induction l generalizing s ready r with
  | nil =>
    simp only [peekLoop, Option.some.injEq] at h
    subst h
    exact ⟨rfl, rfl⟩
  | cons t ts ih =>
    cases hl : s.mapper.lookup t with
    | none => simp [peekLoop, hl] at h
    | some c =>
      cases ho : outcome t with
      | eos =>
        simp only [peekLoop, hl, ho] at h
        split at h
        · exact absurd h (by simp)
        · have hx := ih _ _ _ h
          exact hx
      | timeout =>
        simp only [peekLoop, hl, ho] at h
        cases hp : peekLoop outcome ts
            (s.updateCursor t { c with buffer := [], iter := 0 }) false with
        | none => rw [hp] at h; exact absurd h (by simp)
        | some r₂ =>
          rw [hp] at h
          simp only [Option.some.injEq] at h
          subst h
          have hx := ih _ _ _ hp
          exact hx
      | filled reply =>
        simp only [peekLoop, hl, ho] at h
        split at h
        · have hx := ih _ _ _ h
          exact hx
        · cases hp : peekLoop outcome ts (s.updateCursor t (c.peekRemote reply).1) false with
          | none => rw [hp] at h; exact absurd h (by simp)
          | some r₂ =>
            rw [hp] at h
            simp only [Option.some.injEq] at h
            subst h
            have hx := ih _ _ _ hp
            exact hx

theorem foldl_watermark_mono (l : List Nat) (s : MergeState) :
    s.maxKnownVersion ≤ (l.foldl
      (fun acc t =>
        match acc.mapper.lookup t with
        | some c => { acc with
            maxKnownVersion := max acc.maxKnownVersion c.maxKnownVersion
            minKnownCommittedVersion :=
              max acc.minKnownCommittedVersion c.minKnownCommittedVersion }
        | none => acc) s).maxKnownVersion ∧
    s.minKnownCommittedVersion ≤ (l.foldl
      (fun acc t =>
        match acc.mapper.lookup t with
        | some c => { acc with
            maxKnownVersion := max acc.maxKnownVersion c.maxKnownVersion
            minKnownCommittedVersion :=
              max acc.minKnownCommittedVersion c.minKnownCommittedVersion }
        | none => acc) s).minKnownCommittedVersion := by
  induction l generalizing s with
  | nil => exact ⟨le_refl _, le_refl _⟩
  | cons t ts ih =>
    simp only [List.foldl]
    cases hl : s.mapper.lookup t with
    | none =>
      simp only [hl]
      exact ih s
    | some c =>
      simp only [hl]
      refine ⟨le_trans (le_max_left _ _) (ih _).1, le_trans (le_max_left _ _) (ih _).2⟩

theorem mergePeekRemote_watermarks_mono (s : MergeState) (outcome : Nat → PeekOutcome)
    (r : MergeState × Bool) (h : s.mergePeekRemote outcome = some r) :
    s.maxKnownVersion ≤ r.1.maxKnownVersion ∧
    s.minKnownCommittedVersion ≤ r.1.minKnownCommittedVersion := by
  unfold MergeState.mergePeekRemote at h
  split at h
  · exact absurd h (by simp)
  · cases hp : peekLoop outcome s.emptyCursorStorageTeamIDs s true with
    | none => rw [hp] at h; exact absurd h (by simp)
    | some q =>
      rw [hp] at h
      obtain ⟨s₁, es, ready⟩ := q
      have hw := peekLoop_watermarks outcome _ s true _ hp
      simp only at h hw
      split at h
      · cases h
        exact ⟨le_of_eq hw.1.symm, le_of_eq hw.2.symm⟩
      · cases h
        have hmono := foldl_watermark_mono s.emptyCursorStorageTeamIDs
          { s₁ with emptyCursorStorageTeamIDs := es }
        exact ⟨le_of_eq hw.1.symm |>.trans hmono.1,
          le_of_eq hw.2.symm |>.trans hmono.2⟩

/-- Claim C4 (amended): across `remote_more_available` the broadcast merge
cursor's `max_known_version` and `min_known_committed_version` never
decrease (they are raised with `std::max`); a leaf cursor's watermarks are
overwritten by each non-empty reply (lines 122-123), so they never decrease
provided the successive non-empty replies carry non-decreasing watermark
fields. -/
theorem watermarks_monotone (s : MergeState) (outcome : Nat → PeekOutcome)
    (r : MergeState × Bool) (hs : s.remoteMoreAvailable outcome = some r)
    (c : StorageTeamPeekCursor) (reply : TLogPeekReply)
    (hmax : c.maxKnownVersion ≤ reply.maxKnownVersion)
    (hmin : c.minKnownCommittedVersion ≤ reply.minKnownCommittedVersion) :
    (s.maxKnownVersion ≤ r.1.maxKnownVersion ∧
      s.minKnownCommittedVersion ≤ r.1.minKnownCommittedVersion) ∧
    (c.maxKnownVersion ≤ (c.peekRemote reply).1.maxKnownVersion ∧
      c.minKnownCommittedVersion ≤ (c.peekRemote reply).1.minKnownCommittedVersion) := by
  constructor
  · unfold MergeState.remoteMoreAvailable at hs
    cases hf : s.retiredCursorStorageTeamIDs.foldlM
        (fun acc t => acc.removeCursor t) { s with needSnapshot := true } with
    | none => rw [hf] at hs; exact absurd hs (by simp)
    | some s₂ =>
      rw [hf] at hs
      have h₁ := removeAll_watermarks _ _ _ hf
      have h₂ := mergePeekRemote_watermarks_mono
        { s₂ with retiredCursorStorageTeamIDs := [] } outcome r hs
      simp only at h₁ h₂
      exact ⟨le_of_eq h₁.1.symm |>.trans h₂.1, le_of_eq h₁.2.symm |>.trans h₂.2⟩
  · unfold StorageTeamPeekCursor.peekRemote
    split
    · exact ⟨le_refl _, le_refl _⟩
    · exact ⟨hmax, hmin⟩

/-- One-leaf merge cursor used to witness C4. -/
def mergeStateW4 : MergeState :=
  ⟨true, [(4, mkStorageTeamPeekCursor 1 4 true)], [], [4], [], -1, 2, 2, false, -1, []⟩

/-- Outcome assignment used to witness C4: the single leaf receives a
non-empty reply. -/
def outcomeW4 : Nat → PeekOutcome :=
  fun _ => PeekOutcome.filled ⟨[⟨1, 1, Message.mutation 0⟩], 2, 9, 8⟩

/-- Result of the witness refill for C4. -/
def resultW4 : MergeState × Bool :=
  (mergeStateW4.remoteMoreAvailable outcomeW4).getD (mergeStateW4, false)

/-- Witness for C4 (amended) at concrete inputs: a one-leaf merge cursor
whose single empty leaf receives a non-empty reply, and a leaf receiving a
reply with larger watermarks. -/
theorem watermarks_monotone_witness :
    (mergeStateW4.maxKnownVersion ≤ resultW4.1.maxKnownVersion ∧
      mergeStateW4.minKnownCommittedVersion ≤ resultW4.1.minKnownCommittedVersion) ∧
    ((mkStorageTeamPeekCursor 1 4 true).maxKnownVersion ≤
      ((mkStorageTeamPeekCursor 1 4 true).peekRemote
        ⟨[⟨1, 1, Message.mutation 0⟩], 2, 9, 8⟩).1.maxKnownVersion ∧
      (mkStorageTeamPeekCursor 1 4 true).minKnownCommittedVersion ≤
      ((mkStorageTeamPeekCursor 1 4 true).peekRemote
        ⟨[⟨1, 1, Message.mutation 0⟩], 2, 9, 8⟩).1.minKnownCommittedVersion) :=
  watermarks_monotone mergeStateW4 outcomeW4 resultW4 (by decide)
    (mkStorageTeamPeekCursor 1 4 true) ⟨[⟨1, 1, Message.mutation 0⟩], 2, 9, 8⟩
    (by decide) (by decide)

/-- Claim C4 (counterexample): a leaf cursor that first receives a reply
with `max_known_version = 10`, then one with `max_known_version = 5`, sees
its observable `max_known_version` (and similarly the committed-version
watermark) decrease — the claim's universal never-decreases statement fails
for leaf cursors. -/
theorem leaf_watermark_decreases :
    (((mkStorageTeamPeekCursor 1 0 true).peekRemote
        ⟨[⟨1, 1, Message.mutation 0⟩], 2, 10, 10⟩).1.peekRemote
        ⟨[⟨2, 1, Message.mutation 0⟩], 3, 5, 5⟩).1.maxKnownVersion <
      ((mkStorageTeamPeekCursor 1 0 true).peekRemote
        ⟨[⟨1, 1, Message.mutation 0⟩], 2, 10, 10⟩).1.maxKnownVersion := by
  decide

/-! ### Single-leaf `currentVersion` preservation (claim C7) -/

/-- One-leaf merge cursor whose single leaf is empty and fully retired. -/
def singleRetiredLeafState : MergeState :=
  ⟨true, [(3, mkStorageTeamPeekCursor 8 3 true)], [], [], [3], 7, -1, -1, false, -1, []⟩

/-- One-leaf merge cursor whose single leaf is empty but not retired. -/
def singleEmptyLeafState : MergeState :=
  ⟨true, [(3, mkStorageTeamPeekCursor 8 3 true)], [], [], [], 7, -1, -1, false, -1, []⟩

/-- Claim C7 (counterexample): a merge cursor holding exactly one leaf whose
leaf is empty — but retired — comes out of `tryFillCursorContainer` with
`currentVersion = invalidVersion` (-1), not with its previous value 7: the
claimed unconditional preservation (and the never-regresses consequence)
fails on the code. -/
theorem tryFill_single_retired_leaf_invalidates :
    singleRetiredLeafState.mapper.length = 1 ∧
    (∀ p ∈ singleRetiredLeafState.mapper, p.2.hasRemaining = false) ∧
    singleRetiredLeafState.currentVersion = 7 ∧
    (singleRetiredLeafState.tryFillCursorContainer.map fun q => (q.1.currentVersion, q.2)) =
      some (invalidVersion, false) := by
  decide

/-- Claim C7 (amended): when the merge cursor holds exactly one leaf, the
leaf is empty, and the leaf is not retired (it still needs a refill RPC),
`tryFillCursorContainer` returns `false` and preserves `currentVersion` at
its value from before the call; if instead that single empty leaf is fully
retired, `currentVersion` is left at `invalidVersion` (terminal state). -/
theorem tryFill_single_empty_leaf_preserves_currentVersion (s : MergeState)
    (t : Nat) (c : StorageTeamPeekCursor)
    (hm : s.mapper = [(t, c)]) (hcont : s.container = [])
    (hempty : c.hasRemaining = false)
    (hret : t ∉ s.retiredCursorStorageTeamIDs) :
    ∃ s', s.tryFillCursorContainer = some (s', false) ∧
      s'.currentVersion = s.currentVersion := by
  have hlen : ¬ c.hasRemainingState.iter < c.hasRemainingState.buffer.length := by
    rw [hasRemainingState_buffer]
    simpa [StorageTeamPeekCursor.hasRemaining] using hempty
  have ht₂ : t ∈ (setInsert t s.emptyCursorStorageTeamIDs).filter
      (fun u => decide (u ∉ (setInsert t s.emptyCursorStorageTeamIDs).filter
        (fun v => decide (v ∈ s.retiredCursorStorageTeamIDs)))) := by
    apply List.mem_filter.mpr
    refine ⟨mem_setInsert_self _ _, ?_⟩
    simp only [decide_eq_true_eq]
    intro hc
    have := (List.mem_filter.mp hc).2
    simp only [decide_eq_true_eq] at this
    exact hret this
  have hne : ((setInsert t s.emptyCursorStorageTeamIDs).filter
      (fun u => decide (u ∉ (setInsert t s.emptyCursorStorageTeamIDs).filter
        (fun v => decide (v ∈ s.retiredCursorStorageTeamIDs))))).isEmpty = false := by
    rcases hl : (setInsert t s.emptyCursorStorageTeamIDs).filter
        (fun u => decide (u ∉ (setInsert t s.emptyCursorStorageTeamIDs).filter
          (fun v => decide (v ∈ s.retiredCursorStorageTeamIDs)))) with _ | ⟨x, xs⟩
    · rw [hl] at ht₂; exact absurd ht₂ (List.not_mem_nil _)
    · rfl
  unfold MergeState.tryFillCursorContainer
  rw [hm, hcont]
  simp only [List.length_cons, List.length_nil, Nat.zero_add, List.isEmpty_nil,
    Bool.not_false, if_true, tffScan, hlen, if_false, List.foldl]
  simp only [List.isEmpty_nil, not_true, if_false, hne, Bool.not_false, if_true]
  exact ⟨_, rfl, rfl⟩

/-- Witness for C7 (amended) at a concrete input: a one-leaf merge cursor at
`currentVersion = 7` with an empty, unretired leaf keeps `currentVersion`
at 7. -/
theorem tryFill_single_empty_leaf_preserves_currentVersion_witness :
    ∃ s', singleEmptyLeafState.tryFillCursorContainer = some (s', false) ∧
      s'.currentVersion = singleEmptyLeafState.currentVersion :=
  tryFill_single_empty_leaf_preserves_currentVersion singleEmptyLeafState 3
    (mkStorageTeamPeekCursor 8 3 true) rfl rfl (by decide) (by decide)

/-! ### Lookup, update and container lemmas -/

theorem lookup_of_mem_nodup {m : List (Nat × StorageTeamPeekCursor)} {t : Nat}
    {c : StorageTeamPeekCursor} (hnd : (m.map Prod.fst).Nodup) (hmem : (t, c) ∈ m) :
    m.lookup t = some c := by
  induction m with
  | nil => exact absurd hmem (List.not_mem_nil _)
  | cons p ps ih =>
    simp only [List.map_cons, List.nodup_cons] at hnd
    rcases List.mem_cons.mp hmem with h | h
    · subst h
      simp [List.lookup]
    · have hne : t ≠ p.1 := by
        intro he
        exact hnd.1 (he ▸ (List.mem_map.mpr ⟨(t, c), h, rfl⟩))
      have : (t == p.1) = false := by simp [hne]
      simp only [List.lookup, this]
      exact ih hnd.2 h

theorem mem_of_lookup {m : List (Nat × StorageTeamPeekCursor)} {t : Nat}
    {c : StorageTeamPeekCursor} (h : m.lookup t = some c) : (t, c) ∈ m := by
  induction m with
  | nil => simp [List.lookup] at h
  | cons p ps ih =>
    simp only [List.lookup] at h
    by_cases he : t = p.1
    · rw [(by simp [he] : (t == p.1) = true)] at h
      injection h with h₂
      subst h₂
      subst he
      exact List.mem_cons.mpr (Or.inl rfl)
    · rw [(by simp [he] : (t == p.1) = false)] at h
      exact List.mem_cons.mpr (Or.inr (ih h))

theorem lookup_updateCursor_self (s : MergeState) (t : Nat)
    (c cNew : StorageTeamPeekCursor) (h : s.mapper.lookup t = some c) :
    (s.updateCursor t cNew).mapper.lookup t = some cNew := by
  unfold MergeState.updateCursor
  simp only
  have hgen : ∀ (m : List (Nat × StorageTeamPeekCursor)), m.lookup t = some c →
      (m.map (fun p => if p.1 = t then (t, cNew) else p)).lookup t = some cNew := by
    intro m
    induction m with
    | nil => intro hm; simp [List.lookup] at hm
    | cons p ps ih =>
      intro hm
      simp only [List.lookup] at hm
      simp only [List.map_cons]
      by_cases he : p.1 = t
      · rw [if_pos he]
        simp [List.lookup]
      · have ht : (t == p.1) = false := by
          rw [beq_eq_false_iff_ne]
          exact fun hx => he hx.symm
        rw [ht] at hm
        rw [if_neg he]
        simp only [List.lookup, ht]
        exact ih hm
  exact hgen s.mapper h

theorem lookup_updateCursor_ne (s : MergeState) (t u : Nat)
    (cNew : StorageTeamPeekCursor) (hne : u ≠ t) :
    (s.updateCursor t cNew).mapper.lookup u = s.mapper.lookup u := by
  unfold MergeState.updateCursor
  simp only
  induction s.mapper with
  | nil => simp
  | cons p ps ih =>
    simp only [List.map_cons]
    by_cases he : p.1 = t
    · have hu : (u == t) = false := by rw [beq_eq_false_iff_ne]; exact hne
      have hup : (u == p.1) = false := by rw [beq_eq_false_iff_ne]; rw [he]; exact hne
      rw [if_pos he]
      simp only [List.lookup, hu, hup]
      exact ih
    · rw [if_neg he]
      simp only [List.lookup]
      cases hu : u == p.1
      · simp only
        exact ih
      · simp only

theorem updateCursor_frame (s : MergeState) (t : Nat) (c : StorageTeamPeekCursor) :
    (s.updateCursor t c).container = s.container ∧
    (s.updateCursor t c).currentVersion = s.currentVersion ∧
    (s.updateCursor t c).ordered = s.ordered := ⟨rfl, rfl, rfl⟩

theorem mem_orderedInsert (key : Nat → Int × Nat) (t u : Nat) (l : List Nat) :
    u ∈ orderedInsert key t l ↔ u = t ∨ u ∈ l := by
  induction l with
  | nil => simp [orderedInsert]
  | cons x xs ih =>
    unfold orderedInsert
    split
    · simp
    · simp only [List.mem_cons, ih]
      tauto

theorem mem_push (s : MergeState) (t u : Nat) :
    u ∈ (s.push t).container ↔ u = t ∨ u ∈ s.container := by
  unfold MergeState.push
  split
  · exact mem_orderedInsert _ _ _ _
  · simp [or_comm]

theorem push_frame (s : MergeState) (t : Nat) :
    (s.push t).mapper = s.mapper ∧
    (s.push t).currentVersion = s.currentVersion ∧
    (s.push t).ordered = s.ordered := by
  unfold MergeState.push
  split <;> exact ⟨rfl, rfl, rfl⟩

theorem nodup_orderedInsert (key : Nat → Int × Nat) (t : Nat) (l : List Nat)
    (hnd : l.Nodup) (ht : t ∉ l) : (orderedInsert key t l).Nodup := by
  induction l with
  | nil => simp [orderedInsert]
  | cons x xs ih =>
    unfold orderedInsert
    simp only [List.nodup_cons] at hnd
    split
    · exact List.nodup_cons.mpr ⟨ht, List.nodup_cons.mpr hnd⟩
    · refine List.nodup_cons.mpr ⟨?_, ih hnd.2 (fun hx => ht (List.mem_cons.mpr (Or.inr hx)))⟩
      rw [mem_orderedInsert]
      rintro (he | hx)
      · exact ht (he ▸ List.mem_cons_self x xs)
      · exact hnd.1 hx

theorem nodup_push (s : MergeState) (t : Nat) (hnd : s.container.Nodup)
    (ht : t ∉ s.container) : (s.push t).container.Nodup := by
  unfold MergeState.push
  split
  · exact nodup_orderedInsert _ _ _ hnd ht
  · simp only
    rw [List.nodup_append]
    refine ⟨hnd, List.nodup_singleton t, ?_⟩
    intro a ha hat
    rw [List.mem_singleton] at hat
    exact ht (hat ▸ ha)

/-! ### Characterization of the `tryFillCursorContainer` scan -/

theorem tffScan_mapper_eq (cv : Int) (first : Bool)
    (m : List (Nat × StorageTeamPeekCursor))
    (m' : List (Nat × StorageTeamPeekCursor)) (es : List Nat) (cv' : Int) (f' : Bool)
    (h : tffScan cv first m = some (m', es, cv', f')) :
    m' = m.map (fun p => (p.1, p.2.hasRemainingState)) := by
  induction m generalizing cv first m' es cv' f' with
  | nil =>
    simp only [tffScan, Option.some.injEq, Prod.mk.injEq] at h
    simp [← h.1]
  | cons p ps ih =>
    obtain ⟨t, c⟩ := p
    simp only [tffScan] at h
    split at h
    · split at h
      · cases hr : tffScan c.hasRemainingState.getVersion false ps with
        | none => rw [hr] at h; exact absurd h (by simp)
        | some q =>
          obtain ⟨m₂, es₂, cv₂, f₂⟩ := q
          rw [hr] at h
          simp only [Option.some.injEq, Prod.mk.injEq] at h
          obtain ⟨h1, h2, h3, h4⟩ := h
          rw [← h1, List.map_cons]
          exact congrArg (List.cons _) (ih _ _ _ _ _ _ hr)
      · split at h
        · cases hr : tffScan cv first ps with
          | none => rw [hr] at h; exact absurd h (by simp)
          | some q =>
            obtain ⟨m₂, es₂, cv₂, f₂⟩ := q
            rw [hr] at h
            simp only [Option.some.injEq, Prod.mk.injEq] at h
            obtain ⟨h1, h2, h3, h4⟩ := h
            rw [← h1, List.map_cons]
            exact congrArg (List.cons _) (ih _ _ _ _ _ _ hr)
        · exact absurd h (by simp)
    · cases hr : tffScan cv first ps with
      | none => rw [hr] at h; exact absurd h (by simp)
      | some q =>
        obtain ⟨m₂, es₂, cv₂, f₂⟩ := q
        rw [hr] at h
        simp only [Option.some.injEq, Prod.mk.injEq] at h
        obtain ⟨h1, h2, h3, h4⟩ := h
        rw [← h1, List.map_cons]
        exact congrArg (List.cons _) (ih _ _ _ _ _ _ hr)

theorem tffScan_false_cv (cv : Int) (m : List (Nat × StorageTeamPeekCursor))
    (m' : List (Nat × StorageTeamPeekCursor)) (es : List Nat) (cv' : Int) (f' : Bool)
    (h : tffScan cv false m = some (m', es, cv', f')) : cv' = cv ∧ f' = false := by
  induction m generalizing m' es cv' f' with
  | nil =>
    simp only [tffScan, Option.some.injEq, Prod.mk.injEq] at h
    exact ⟨h.2.2.1.symm, h.2.2.2.symm⟩
  | cons p ps ih =>
    obtain ⟨t, c⟩ := p
    simp only [tffScan] at h
    split at h
    · simp only [if_neg (by exact Bool.false_ne_true)] at h
      split at h
      · cases hr : tffScan cv false ps with
        | none => rw [hr] at h; exact absurd h (by simp)
        | some q =>
          obtain ⟨m₂, es₂, cv₂, f₂⟩ := q
          rw [hr] at h
          simp only [Option.some.injEq, Prod.mk.injEq] at h
          obtain ⟨_, _, h3, h4⟩ := h
          obtain ⟨hc, hf⟩ := ih _ _ _ _ hr
          exact ⟨h3 ▸ hc, h4 ▸ hf⟩
      · exact absurd h (by simp)
    · cases hr : tffScan cv false ps with
      | none => rw [hr] at h; exact absurd h (by simp)
      | some q =>
        obtain ⟨m₂, es₂, cv₂, f₂⟩ := q
        rw [hr] at h
        simp only [Option.some.injEq, Prod.mk.injEq] at h
        obtain ⟨_, _, h3, h4⟩ := h
        obtain ⟨hc, hf⟩ := ih _ _ _ _ hr
        exact ⟨h3 ▸ hc, h4 ▸ hf⟩

/-- Liveness of a leaf as the merge cursor's refill walk observes it:
`hasRemaining()` is true. -/
def liveC (c : StorageTeamPeekCursor) : Prop :=
  c.hasRemainingState.iter < c.hasRemainingState.buffer.length

instance (c : StorageTeamPeekCursor) : Decidable (liveC c) := by
  unfold liveC; infer_instance

theorem tffScan_false_live (cv : Int) (m : List (Nat × StorageTeamPeekCursor))
    (r : List (Nat × StorageTeamPeekCursor) × List Nat × Int × Bool)
    (h : tffScan cv false m = some r) :
    ∀ p ∈ m, liveC p.2 → p.2.hasRemainingState.getVersion = cv := by
  induction m generalizing r with
  | nil => intro p hp; exact absurd hp (List.not_mem_nil _)
  | cons p ps ih =>
    obtain ⟨t, c⟩ := p
    intro q hq hlive
    simp only [tffScan] at h
    split at h
    · simp only [if_neg (by exact Bool.false_ne_true)] at h
      split at h
      · rcases List.mem_cons.mp hq with he | hm
        · subst he
          rename_i hguard
          exact hguard.symm
        · cases hr : tffScan cv false ps with
          | none => rw [hr] at h; exact absurd h (by simp)
          | some r₂ => exact ih r₂ hr q hm hlive
      · exact absurd h (by simp)
    · rcases List.mem_cons.mp hq with he | hm
      · subst he
        rename_i hdead
        exact absurd hlive hdead
      · cases hr : tffScan cv false ps with
        | none => rw [hr] at h; exact absurd h (by simp)
        | some r₂ => exact ih r₂ hr q hm hlive

theorem tffScan_true_live (cv : Int) (m : List (Nat × StorageTeamPeekCursor))
    (r : List (Nat × StorageTeamPeekCursor) × List Nat × Int × Bool)
    (h : tffScan cv true m = some r) :
    ∀ p ∈ m, liveC p.2 → p.2.hasRemainingState.getVersion = r.2.2.1 := by
  induction m generalizing cv r with
  | nil => intro p hp; exact absurd hp (List.not_mem_nil _)
  | cons p ps ih =>
    obtain ⟨t, c⟩ := p
    intro q hq hlive
    simp only [tffScan] at h
    split at h
    · rw [if_pos trivial] at h
      cases hr : tffScan c.hasRemainingState.getVersion false ps with
      | none => rw [hr] at h; exact absurd h (by simp)
      | some r₂ =>
        rw [hr] at h
        simp only [Option.some.injEq] at h
        subst h
        have hcv : r₂.2.2.1 = c.hasRemainingState.getVersion :=
          (tffScan_false_cv _ _ _ _ _ _ hr).1
        rcases List.mem_cons.mp hq with he | hm
        · subst he
          exact hcv.symm
        · have hv := tffScan_false_live _ _ _ hr q hm hlive
          exact hv.trans hcv.symm
    · rcases List.mem_cons.mp hq with he | hm
      · subst he
        rename_i hdead
        exact absurd hlive hdead
      · cases hr : tffScan cv true ps with
        | none => rw [hr] at h; exact absurd h (by simp)
        | some r₂ =>
          rw [hr] at h
          simp only [Option.some.injEq] at h
          subst h
          exact ih _ _ hr q hm hlive

theorem tffScan_dead_es (cv : Int) (first : Bool)
    (m : List (Nat × StorageTeamPeekCursor))
    (m' : List (Nat × StorageTeamPeekCursor)) (es : List Nat) (cv' : Int) (f' : Bool)
    (h : tffScan cv first m = some (m', es, cv', f')) :
    ∀ p ∈ m, ¬ liveC p.2 → p.1 ∈ es := by
  induction m generalizing cv first m' es cv' f' with
  | nil => intro p hp; exact absurd hp (List.not_mem_nil _)
  | cons p ps ih =>
    obtain ⟨t, c⟩ := p
    intro q hq hdead
    simp only [tffScan] at h
    split at h
    · rcases List.mem_cons.mp hq with he | hm
      · subst he
        rename_i hlive
        exact absurd hlive hdead
      · split at h
        · cases hr : tffScan c.hasRemainingState.getVersion false ps with
          | none => rw [hr] at h; exact absurd h (by simp)
          | some r₂ =>
            rw [hr] at h
            obtain ⟨m₂, es₂, cv₂, f₂⟩ := r₂
            simp only [Option.some.injEq, Prod.mk.injEq] at h
            obtain ⟨h1, h2, h3, h4⟩ := h
            rw [← h2]
            exact ih _ _ _ _ _ _ hr q hm hdead
        · split at h
          · cases hr : tffScan cv first ps with
            | none => rw [hr] at h; exact absurd h (by simp)
            | some r₂ =>
              rw [hr] at h
              obtain ⟨m₂, es₂, cv₂, f₂⟩ := r₂
              simp only [Option.some.injEq, Prod.mk.injEq] at h
              obtain ⟨h1, h2, h3, h4⟩ := h
              rw [← h2]
              exact ih _ _ _ _ _ _ hr q hm hdead
          · exact absurd h (by simp)
    · cases hr : tffScan cv first ps with
      | none => rw [hr] at h; exact absurd h (by simp)
      | some r₂ =>
        rw [hr] at h
        obtain ⟨m₂, es₂, cv₂, f₂⟩ := r₂
        simp only [Option.some.injEq, Prod.mk.injEq] at h
        obtain ⟨h1, h2, h3, h4⟩ := h
        rw [← h2]
        rcases List.mem_cons.mp hq with he | hm
        · subst he
          exact List.mem_cons.mpr (Or.inl rfl)
        · exact List.mem_cons.mpr (Or.inr (ih _ _ _ _ _ _ hr q hm hdead))

theorem tffScan_false_mismatch (cv : Int) (m : List (Nat × StorageTeamPeekCursor))
    (hx : ∃ p ∈ m, liveC p.2 ∧ p.2.hasRemainingState.getVersion ≠ cv) :
    tffScan cv false m = none := by
  induction m with
  | nil => obtain ⟨p, hp, _⟩ := hx; exact absurd hp (List.not_mem_nil _)
  | cons p ps ih =>
    obtain ⟨t, c⟩ := p
    simp only [tffScan]
    obtain ⟨q, hq, hqlive, hqne⟩ := hx
    split
    · simp only [if_neg (by exact Bool.false_ne_true)]
      rcases List.mem_cons.mp hq with he | hm
      · subst he
        rw [if_neg (fun he₂ => hqne he₂.symm)]
      · split
        · rw [ih ⟨q, hm, hqlive, hqne⟩]
        · rfl
    · rcases List.mem_cons.mp hq with he | hm
      · subst he
        rename_i hdead
        exact absurd hqlive hdead
      · rw [ih ⟨q, hm, hqlive, hqne⟩]

theorem tffScan_true_mismatch (cv : Int) (m : List (Nat × StorageTeamPeekCursor))
    (hx : ∃ p ∈ m, ∃ q ∈ m, liveC p.2 ∧ liveC q.2 ∧
      p.2.hasRemainingState.getVersion ≠ q.2.hasRemainingState.getVersion) :
    tffScan cv true m = none := by
  induction m generalizing cv with
  | nil => obtain ⟨p, hp, _⟩ := hx; exact absurd hp (List.not_mem_nil _)
  | cons x xs ih =>
    obtain ⟨t, c⟩ := x
    simp only [tffScan]
    obtain ⟨p, hp, q, hq, hpl, hql, hne⟩ := hx
    split
    · have hmis : ∃ w ∈ xs, liveC w.2 ∧
          w.2.hasRemainingState.getVersion ≠ c.hasRemainingState.getVersion := by
        rcases List.mem_cons.mp hp with hep | hmp
        · rcases List.mem_cons.mp hq with heq | hmq
          · subst hep; subst heq
            exact absurd rfl hne
          · subst hep
            exact ⟨q, hmq, hql, fun hx₂ => hne hx₂.symm⟩
        · rcases List.mem_cons.mp hq with heq | hmq
          · subst heq
            exact ⟨p, hmp, hpl, hne⟩
          · by_cases hpv : p.2.hasRemainingState.getVersion = c.hasRemainingState.getVersion
            · exact ⟨q, hmq, hql, fun hx₂ => hne (hpv.trans hx₂.symm)⟩
            · exact ⟨p, hmp, hpl, hpv⟩
      rw [if_pos trivial, tffScan_false_mismatch _ _ hmis]
    · rename_i hdead
      have hmis : ∃ p₂ ∈ xs, ∃ q₂ ∈ xs, liveC p₂.2 ∧ liveC q₂.2 ∧
          p₂.2.hasRemainingState.getVersion ≠ q₂.2.hasRemainingState.getVersion := by
        rcases List.mem_cons.mp hp with hep | hmp
        · subst hep
          exact absurd hpl hdead
        · rcases List.mem_cons.mp hq with heq | hmq
          · subst heq
            exact absurd hql hdead
          · exact ⟨p, hmp, q, hmq, hpl, hql, hne⟩
      rw [ih _ hmis]

theorem tffScan_false_aligned (cv : Int) (m : List (Nat × StorageTeamPeekCursor))
    (ha : ∀ p ∈ m, liveC p.2 → p.2.hasRemainingState.getVersion = cv) :
    (tffScan cv false m).isSome = true := by
  induction m with
  | nil => rfl
  | cons p ps ih =>
    obtain ⟨t, c⟩ := p
    simp only [tffScan]
    split
    · simp only [if_neg (by exact Bool.false_ne_true)]
      rename_i hlive
      rw [if_pos (ha (t, c) (List.mem_cons_self _ _) hlive).symm]
      have := ih (fun q hq => ha q (List.mem_cons.mpr (Or.inr hq)))
      cases hr : tffScan cv false ps with
      | none => rw [hr] at this; exact absurd this (by simp)
      | some r₂ => rfl
    · have := ih (fun q hq => ha q (List.mem_cons.mpr (Or.inr hq)))
      cases hr : tffScan cv false ps with
      | none => rw [hr] at this; exact absurd this (by simp)
      | some r₂ => rfl

theorem tffScan_true_aligned (cv : Int) (m : List (Nat × StorageTeamPeekCursor))
    (ha : ∀ p ∈ m, ∀ q ∈ m, liveC p.2 → liveC q.2 →
      p.2.hasRemainingState.getVersion = q.2.hasRemainingState.getVersion) :
    (tffScan cv true m).isSome = true := by
  induction m generalizing cv with
  | nil => rfl
  | cons p ps ih =>
    obtain ⟨t, c⟩ := p
    simp only [tffScan]
    split
    · rw [if_pos trivial]
      rename_i hlive
      have halig : ∀ q ∈ ps, liveC q.2 →
          q.2.hasRemainingState.getVersion = c.hasRemainingState.getVersion :=
        fun q hq hql => ha q (List.mem_cons.mpr (Or.inr hq)) (t, c)
          (List.mem_cons_self _ _) hql hlive
      have := tffScan_false_aligned c.hasRemainingState.getVersion ps halig
      cases hr : tffScan c.hasRemainingState.getVersion false ps with
      | none => rw [hr] at this; exact absurd this (by simp)
      | some r₂ => rfl
    · have := ih cv (fun q hq q₂ hq₂ => ha q (List.mem_cons.mpr (Or.inr hq)) q₂
        (List.mem_cons.mpr (Or.inr hq₂)))
      cases hr : tffScan cv true ps with
      | none => rw [hr] at this; exact absurd this (by simp)
      | some r₂ => rfl

theorem mem_foldl_setInsert (l : List Nat) (acc : List Nat) (u : Nat) :
    u ∈ l.foldl (fun es t => setInsert t es) acc ↔ u ∈ l ∨ u ∈ acc := by
  induction l generalizing acc with
  | nil => simp
  | cons x xs ih =>
    simp only [List.foldl_cons, ih, mem_setInsert_iff, List.mem_cons]
    tauto

theorem foldl_pushFilter_shape (e r : List Nat)
    (l : List (Nat × StorageTeamPeekCursor)) (s : MergeState) :
    ∃ L, l.foldl (fun acc p => if p.1 ∉ e ∧ p.1 ∉ r then acc.push p.1 else acc) s =
      { s with container := L } := by
  induction l generalizing s with
  | nil => exact ⟨s.container, rfl⟩
  | cons p ps ih =>
    simp only [List.foldl_cons]
    by_cases hc : p.1 ∉ e ∧ p.1 ∉ r
    · rw [if_pos hc]
      obtain ⟨L, hL⟩ := ih (s.push p.1)
      refine ⟨L, ?_⟩
      rw [hL]
      unfold MergeState.push
      split <;> rfl
    · rw [if_neg hc]
      exact ih s

theorem foldl_pushFilter_proj (e r : List Nat)
    (l : List (Nat × StorageTeamPeekCursor)) (s : MergeState) :
    (l.foldl (fun acc p => if p.1 ∉ e ∧ p.1 ∉ r then acc.push p.1 else acc) s).mapper =
      s.mapper ∧
    (l.foldl (fun acc p => if p.1 ∉ e ∧ p.1 ∉ r then acc.push p.1 else acc) s).currentVersion =
      s.currentVersion := by
  obtain ⟨L, hL⟩ := foldl_pushFilter_shape e r l s
  rw [hL]
  exact ⟨rfl, rfl⟩

theorem mem_foldl_pushFilter (e r : List Nat)
    (l : List (Nat × StorageTeamPeekCursor)) (s : MergeState) (u : Nat) :
    u ∈ (l.foldl (fun acc p => if p.1 ∉ e ∧ p.1 ∉ r then acc.push p.1 else acc) s).container ↔
    u ∈ s.container ∨ ∃ p, p ∈ l ∧ (p.1 ∉ e ∧ p.1 ∉ r) ∧ p.1 = u := by
  induction l generalizing s with
  | nil => simp
  | cons p ps ih =>
    simp only [List.foldl_cons]
    by_cases hc : p.1 ∉ e ∧ p.1 ∉ r
    · rw [if_pos hc, ih (s.push p.1)]
      simp only [mem_push, List.mem_cons]
      constructor
      · rintro ((rfl | h) | ⟨q, hq, hcq, rfl⟩)
        · exact Or.inr ⟨p, Or.inl rfl, hc, rfl⟩
        · exact Or.inl h
        · exact Or.inr ⟨q, Or.inr hq, hcq, rfl⟩
      · rintro (h | ⟨q, (rfl | hq), hcq, rfl⟩)
        · exact Or.inl (Or.inr h)
        · exact Or.inl (Or.inl rfl)
        · exact Or.inr ⟨q, hq, hcq, rfl⟩
    · rw [if_neg hc, ih s]
      simp only [List.mem_cons]
      constructor
      · rintro (h | ⟨q, hq, hcq, rfl⟩)
        · exact Or.inl h
        · exact Or.inr ⟨q, Or.inr hq, hcq, rfl⟩
      · rintro (h | ⟨q, (rfl | hq), hcq, rfl⟩)
        · exact Or.inl h
        · exact absurd hcq hc
        · exact Or.inr ⟨q, hq, hcq, rfl⟩

theorem nodup_foldl_pushFilter (e r : List Nat)
    (l : List (Nat × StorageTeamPeekCursor)) (s : MergeState)
    (hkeys : (l.map Prod.fst).Nodup) (hnd : s.container.Nodup)
    (hdisj : ∀ p ∈ l, p.1 ∉ s.container) :
    (l.foldl (fun acc p => if p.1 ∉ e ∧ p.1 ∉ r then acc.push p.1 else acc) s).container.Nodup := by
  induction l generalizing s with
  | nil => exact hnd
  | cons p ps ih =>
    simp only [List.map_cons, List.nodup_cons] at hkeys
    simp only [List.foldl_cons]
    by_cases hc : p.1 ∉ e ∧ p.1 ∉ r
    · rw [if_pos hc]
      refine ih (s.push p.1) hkeys.2 (nodup_push s p.1 hnd (hdisj p (List.mem_cons_self _ _))) ?_
      intro q hq
      rw [mem_push]
      rintro (he | hm)
      · exact hkeys.1 (he ▸ List.mem_map.mpr ⟨q, hq, rfl⟩)
      · exact hdisj q (List.mem_cons.mpr (Or.inr hq)) hm
    · rw [if_neg hc]
      exact ih s hkeys.2 hnd (fun q hq => hdisj q (List.mem_cons.mpr (Or.inr hq)))

/-- The same-version invariant of the broadcast merge cursor: every leaf
referenced by the ready cursor container exposes a triple at
`currentVersion`. -/
def MergeState.sameVersionInv (s : MergeState) : Prop :=
  ∀ t ∈ s.container, ∃ c, s.mapper.lookup t = some c ∧
    c.iter < c.buffer.length ∧ c.getVersion = s.currentVersion

/-- Full specification of a successful `tryFillCursorContainer`: the mapper
keys are unchanged, the refilled container satisfies the same-version
invariant and holds no duplicates, and a `false` return leaves the container
as it was. -/
theorem tryFill_spec (s s' : MergeState) (b : Bool)
    (hnd : (s.mapper.map Prod.fst).Nodup)
    (h : s.tryFillCursorContainer = some (s', b)) :
    s'.mapper.map Prod.fst = s.mapper.map Prod.fst ∧
    s'.sameVersionInv ∧
    s'.container.Nodup ∧
    (b = false → s'.container = s.container) := by
  unfold MergeState.tryFillCursorContainer at h
  split at h
  · exact absurd h (by simp)
  · split at h
    · exact absurd h (by simp)
    · rename_i hlen hcont
      have hcont₂ : s.container = [] := by
        rw [not_not, List.isEmpty_iff] at hcont
        exact hcont
      cases hscan : tffScan invalidVersion true s.mapper with
      | none => rw [hscan] at h; exact absurd h (by simp)
      | some quad =>
        obtain ⟨mapper₁, newEmpty, cv, f₁⟩ := quad
        rw [hscan] at h
        simp only at h
        have hkeys : mapper₁.map Prod.fst = s.mapper.map Prod.fst := by
          rw [tffScan_mapper_eq _ _ _ _ _ _ _ hscan]
          rw [List.map_map]
          rfl
        split at h
        · split at h
          · simp only [Option.some.injEq, Prod.mk.injEq] at h
            obtain ⟨hs, hb⟩ := h
            subst hs
            refine ⟨hkeys, ?_, ?_, fun _ => rfl⟩
            · intro t ht
              rw [hcont₂] at ht
              exact absurd ht (List.not_mem_nil _)
            · rw [hcont₂]
              exact List.nodup_nil
          · simp only [Option.some.injEq, Prod.mk.injEq] at h
            obtain ⟨hs, hb⟩ := h
            subst hs
            refine ⟨hkeys, ?_, ?_, fun _ => rfl⟩
            · intro t ht
              rw [hcont₂] at ht
              exact absurd ht (List.not_mem_nil _)
            · rw [hcont₂]
              exact List.nodup_nil
        · split at h
          · simp only [Option.some.injEq, Prod.mk.injEq] at h
            obtain ⟨hs, hb⟩ := h
            subst hs
            refine ⟨hkeys, ?_, ?_, fun _ => rfl⟩
            · intro t ht
              rw [hcont₂] at ht
              exact absurd ht (List.not_mem_nil _)
            · rw [hcont₂]
              exact List.nodup_nil
          · rename_i hesne hterm
            simp only [Option.some.injEq, Prod.mk.injEq] at h
            obtain ⟨hs, hb⟩ := h
            have hknd : (mapper₁.map Prod.fst).Nodup := by rw [hkeys]; exact hnd
            rw [← hs]
            refine ⟨?_, ?_, ?_, ?_⟩
            · rw [(foldl_pushFilter_proj _ _ _ _).1]
              exact hkeys
            · intro t ht
              rw [mem_foldl_pushFilter] at ht
              simp only [hcont₂, List.not_mem_nil, false_or] at ht
              obtain ⟨p, hp, hcp, hpt⟩ := ht
              have hmem₂ : ∃ q ∈ s.mapper, (q.1, q.2.hasRemainingState) = p := by
                have hme := tffScan_mapper_eq _ _ _ _ _ _ _ hscan
                rw [hme] at hp
                exact List.mem_map.mp hp
              obtain ⟨q, hq, hqp⟩ := hmem₂
              have hlive : liveC q.2 := by
                by_contra hdead
                have hts : q.1 ∈ newEmpty := tffScan_dead_es _ _ _ _ _ _ _ hscan q hq hdead
                have hes₁ : q.1 ∈ newEmpty.foldl (fun es t => setInsert t es)
                    s.emptyCursorStorageTeamIDs :=
                  (mem_foldl_setInsert _ _ _).mpr (Or.inl hts)
                have hp1 : p.1 = q.1 := by rw [← hqp]
                by_cases hrac : q.1 ∈ (newEmpty.foldl (fun es t => setInsert t es)
                    s.emptyCursorStorageTeamIDs).filter
                      (fun u => decide (u ∈ s.retiredCursorStorageTeamIDs))
                · exact hcp.2 (by rw [hp1]; exact hrac)
                · have hmf : q.1 ∈ (newEmpty.foldl (fun es t => setInsert t es)
                      s.emptyCursorStorageTeamIDs).filter
                        (fun u => decide (u ∉ (newEmpty.foldl (fun es t => setInsert t es)
                          s.emptyCursorStorageTeamIDs).filter
                            (fun v => decide (v ∈ s.retiredCursorStorageTeamIDs)))) :=
                    List.mem_filter.mpr ⟨hes₁, by simp only [decide_eq_true_eq]; exact hrac⟩
                  exact hcp.1 (by rw [hp1]; exact hmf)
              refine ⟨q.2.hasRemainingState, ?_, ?_, ?_⟩
              · rw [(foldl_pushFilter_proj _ _ _ _).1]
                apply lookup_of_mem_nodup hknd
                rw [← hpt, ← hqp]
                rw [tffScan_mapper_eq _ _ _ _ _ _ _ hscan]
                exact List.mem_map.mpr ⟨q, hq, rfl⟩
              · rw [hasRemainingState_buffer]
                have hlive₂ := hlive
                unfold liveC at hlive₂
                rw [hasRemainingState_buffer] at hlive₂
                exact hlive₂
              · rw [(foldl_pushFilter_proj _ _ _ _).2]
                exact tffScan_true_live _ _ _ hscan q hq hlive
            · apply nodup_foldl_pushFilter
              · exact hknd
              · show s.container.Nodup
                rw [hcont₂]
                exact List.nodup_nil
              · intro p hp
                show p.1 ∉ s.container
                rw [hcont₂]
                exact List.not_mem_nil _
            · intro hbf
              rw [← hb] at hbf
              exact absurd hbf (by simp)


/-! ### Preservation of the same-version invariant by `nextImpl` -/

theorem nextOrderedStep_preserves (s₀ s' : MergeState)
    (hnd : (s₀.mapper.map Prod.fst).Nodup) (hcn : s₀.container.Nodup)
    (hinv : s₀.sameVersionInv) (h : s₀.nextOrderedStep = some s') :
    s'.sameVersionInv := by
  unfold MergeState.nextOrderedStep at h
  cases hc : s₀.container with
  | nil => rw [hc] at h; exact absurd h (by simp)
  | cons t restC =>
    rw [hc] at h
    simp only at h
    cases hl : s₀.mapper.lookup t with
    | none => rw [hl] at h; exact absurd h (by simp)
    | some c =>
      rw [hl] at h
      simp only at h
      have htnotin : t ∉ restC := by
        rw [hc] at hcn
        exact (List.nodup_cons.mp hcn).1
      have hrest : ∀ u ∈ restC, ∃ cu,
          (({ s₀ with container := restC }).updateCursor t
            c.next.hasRemainingState).mapper.lookup u = some cu ∧
          cu.iter < cu.buffer.length ∧
          cu.getVersion = s₀.currentVersion := by
        intro u hu
        have hune : u ≠ t := fun he => htnotin (he ▸ hu)
        obtain ⟨cu, hlu, hlive, hver⟩ := hinv u (hc ▸ List.mem_cons.mpr (Or.inr hu))
        refine ⟨cu, ?_, hlive, hver⟩
        rw [lookup_updateCursor_ne _ _ _ _ hune]
        exact hlu
      split at h
      · rename_i hcond
        cases h
        intro u hu
        rw [mem_push] at hu
        rcases hu with rfl | hu
        · refine ⟨c.next.hasRemainingState, ?_, hcond.1, ?_⟩
          · rw [(push_frame _ _).1]
            exact lookup_updateCursor_self _ _ c _ hl
          · rw [(push_frame _ _).2.1]
            exact hcond.2
        · obtain ⟨cu, hlu, hlive, hver⟩ := hrest u hu
          refine ⟨cu, ?_, hlive, ?_⟩
          · rw [(push_frame _ _).1]
            exact hlu
          · rw [(push_frame _ _).2.1]
            exact hver
      · cases h
        intro u hu
        exact hrest u hu

theorem nextUnorderedStep_preserves (s₀ s' : MergeState)
    (hnd : (s₀.mapper.map Prod.fst).Nodup) (hcn : s₀.container.Nodup)
    (hinv : s₀.sameVersionInv) (h : s₀.nextUnorderedStep = some s') :
    s'.sameVersionInv := by
  unfold MergeState.nextUnorderedStep at h
  cases hc : s₀.container with
  | nil => rw [hc] at h; exact absurd h (by simp)
  | cons t restC =>
    rw [hc] at h
    simp only at h
    cases hl : s₀.mapper.lookup t with
    | none => rw [hl] at h; exact absurd h (by simp)
    | some c =>
      rw [hl] at h
      simp only at h
      have htnotin : t ∉ restC := by
        rw [hc] at hcn
        exact (List.nodup_cons.mp hcn).1
      have hrest : ∀ u ∈ restC, ∃ cu,
          (s₀.updateCursor t c.next.hasRemainingState).mapper.lookup u = some cu ∧
          cu.iter < cu.buffer.length ∧
          cu.getVersion = s₀.currentVersion := by
        intro u hu
        have hune : u ≠ t := fun he => htnotin (he ▸ hu)
        obtain ⟨cu, hlu, hlive, hver⟩ := hinv u (hc ▸ List.mem_cons.mpr (Or.inr hu))
        refine ⟨cu, ?_, hlive, hver⟩
        rw [lookup_updateCursor_ne _ _ _ _ hune]
        exact hlu
      split at h
      · cases h
        intro u hu
        exact hrest u hu
      · rename_i hcond
        push_neg at hcond
        cases h
        intro u hu
        have hu₂ : u ∈ s₀.container := by
          rw [(updateCursor_frame s₀ t c.next.hasRemainingState).1] at hu
          exact hu
        rw [hc] at hu₂
        rcases List.mem_cons.mp hu₂ with rfl | hu₃
        · exact ⟨c.next.hasRemainingState, lookup_updateCursor_self _ _ c _ hl,
            hcond.1, hcond.2⟩
        · exact hrest u hu₃

theorem nextOrdered_preserves (s s' : MergeState)
    (hnd : (s.mapper.map Prod.fst).Nodup) (hcn : s.container.Nodup)
    (hinv : s.sameVersionInv) (h : s.nextOrdered = some s') :
    s'.sameVersionInv := by
  unfold MergeState.nextOrdered at h
  split at h
  · cases htf : s.tryFillCursorContainer with
    | none => rw [htf] at h; exact absurd h (by simp)
    | some q =>
      obtain ⟨s₀, b₀⟩ := q
      rw [htf] at h
      cases b₀ with
      | false => exact absurd h (by simp)
      | true =>
        obtain ⟨hkeys, hinv₀, hcn₀, _⟩ := tryFill_spec s s₀ true hnd htf
        exact nextOrderedStep_preserves s₀ s' (by rw [hkeys]; exact hnd) hcn₀ hinv₀ h
  · exact nextOrderedStep_preserves s s' hnd hcn hinv h

theorem nextUnordered_preserves (s s' : MergeState)
    (hnd : (s.mapper.map Prod.fst).Nodup) (hcn : s.container.Nodup)
    (hinv : s.sameVersionInv) (h : s.nextUnordered = some s') :
    s'.sameVersionInv := by
  unfold MergeState.nextUnordered at h
  split at h
  · cases htf : s.tryFillCursorContainer with
    | none => rw [htf] at h; exact absurd h (by simp)
    | some q =>
      obtain ⟨s₀, b₀⟩ := q
      rw [htf] at h
      cases b₀ with
      | false => exact absurd h (by simp)
      | true =>
        obtain ⟨hkeys, hinv₀, hcn₀, _⟩ := tryFill_spec s s₀ true hnd htf
        exact nextUnorderedStep_preserves s₀ s' (by rw [hkeys]; exact hnd) hcn₀ hinv₀ h
  · exact nextUnorderedStep_preserves s s' hnd hcn hinv h

theorem tryFill_mismatch (s : MergeState) (t₁ t₂ : Nat)
    (c₁ c₂ : StorageTeamPeekCursor)
    (h₁ : (t₁, c₁) ∈ s.mapper) (h₂ : (t₂, c₂) ∈ s.mapper)
    (hl₁ : liveC c₁) (hl₂ : liveC c₂)
    (hv : c₁.hasRemainingState.getVersion ≠ c₂.hasRemainingState.getVersion)
    (hcont : s.container = []) :
    s.tryFillCursorContainer = none := by
  unfold MergeState.tryFillCursorContainer
  have hne : ¬ s.mapper.length = 0 := by
    intro h0
    rw [List.length_eq_zero] at h0
    rw [h0] at h₁
    exact absurd h₁ (List.not_mem_nil _)
  rw [if_neg hne]
  rw [if_neg (by simp [hcont])]
  rw [tffScan_true_mismatch _ _ ⟨(t₁, c₁), h₁, (t₂, c₂), h₂, hl₁, hl₂, hv⟩]

theorem tryFill_aligned_isSome (s : MergeState)
    (hm : s.mapper ≠ []) (hcont : s.container = [])
    (ha : ∀ p ∈ s.mapper, ∀ q ∈ s.mapper, liveC p.2 → liveC q.2 →
      p.2.hasRemainingState.getVersion = q.2.hasRemainingState.getVersion) :
    (s.tryFillCursorContainer).isSome = true := by
  unfold MergeState.tryFillCursorContainer
  rw [if_neg (fun h0 => hm (List.length_eq_zero.mp h0))]
  rw [if_neg (by simp [hcont])]
  have hs := tffScan_true_aligned invalidVersion s.mapper ha
  cases hscan : tffScan invalidVersion true s.mapper with
  | none => rw [hscan] at hs; exact absurd hs (by simp)
  | some quad =>
    obtain ⟨m₁, es₁, cv₁, f₁⟩ := quad
    simp only
    split
    · split <;> rfl
    · split <;> rfl

/-- Claim C3: (i) a completed `tryFillCursorContainer` leaves every leaf in
the ready container exposing a triple at `currentVersion`, and both `nextImpl`
variants preserve that same-version invariant — so whenever the container is
non-empty every leaf in it is at `currentVersion`; (ii) two live leaves
exposing different versions make `tryFillCursorContainer` hit its fatal
`UNSTOPPABLE_ASSERT` (modelled `none`); (iii) the assertion is unreachable
when the leaf streams are version-aligned (all live leaves agree on their
front version). -/
theorem sameVersion_invariant
    (sa sa' : MergeState) (ba : Bool)
    (hnda : (sa.mapper.map Prod.fst).Nodup)
    (ha : sa.tryFillCursorContainer = some (sa', ba))
    (sb sb' : MergeState)
    (hndb : (sb.mapper.map Prod.fst).Nodup) (hcnb : sb.container.Nodup)
    (hinvb : sb.sameVersionInv) (hb : sb.nextOrdered = some sb')
    (sc sc' : MergeState)
    (hndc : (sc.mapper.map Prod.fst).Nodup) (hcnc : sc.container.Nodup)
    (hinvc : sc.sameVersionInv) (hc : sc.nextUnordered = some sc')
    (sd : MergeState) (t₁ t₂ : Nat) (c₁ c₂ : StorageTeamPeekCursor)
    (hd₁ : (t₁, c₁) ∈ sd.mapper) (hd₂ : (t₂, c₂) ∈ sd.mapper)
    (hld₁ : liveC c₁) (hld₂ : liveC c₂)
    (hvd : c₁.hasRemainingState.getVersion ≠ c₂.hasRemainingState.getVersion)
    (hcond : sd.container = [])
    (se : MergeState) (hme : se.mapper ≠ []) (hconte : se.container = [])
    (hae : ∀ p ∈ se.mapper, ∀ q ∈ se.mapper, liveC p.2 → liveC q.2 →
      p.2.hasRemainingState.getVersion = q.2.hasRemainingState.getVersion) :
    sa'.sameVersionInv ∧ sb'.sameVersionInv ∧ sc'.sameVersionInv ∧
    sd.tryFillCursorContainer = none ∧
    (se.tryFillCursorContainer).isSome = true :=
  ⟨(tryFill_spec sa sa' ba hnda ha).2.1,
    nextOrdered_preserves sb sb' hndb hcnb hinvb hb,
    nextUnordered_preserves sc sc' hndc hcnc hinvc hc,
    tryFill_mismatch sd t₁ t₂ c₁ c₂ hd₁ hd₂ hld₁ hld₂ hvd hcond,
    tryFill_aligned_isSome se hme hconte hae⟩

/-- Two-leaf aligned merge state used to witness C3 (refill success). -/
def mergeStateW3 : MergeState :=
  ⟨true,
    [(1, ⟨1, 5, true, 4, -1, -1, [⟨5, 1, Message.mutation 0⟩], 0⟩),
      (2, ⟨2, 5, true, 4, -1, -1, [⟨5, 2, Message.mutation 1⟩], 0⟩)],
    [], [], [], 4, -1, -1, false, -1, []⟩

/-- Result state of the witness refill for C3. -/
def mergeStateW3After : MergeState :=
  (mergeStateW3.tryFillCursorContainer.map Prod.fst).getD mergeStateW3

/-- Result state of the witness ordered advance for C3. -/
def mergeStateW3Next : MergeState :=
  mergeStateW3After.nextOrdered.getD mergeStateW3After

/-- Result state of the witness unordered advance for C3. -/
def mergeStateW3UNext : MergeState :=
  { mergeStateW3After with ordered := false }.nextUnordered.getD mergeStateW3After

/-- Two-leaf misaligned merge state used to witness C3 (fatal assertion). -/
def mergeStateW3Bad : MergeState :=
  ⟨true,
    [(1, ⟨1, 5, true, 4, -1, -1, [⟨5, 1, Message.mutation 0⟩], 0⟩),
      (2, ⟨2, 5, true, 4, -1, -1, [⟨6, 1, Message.mutation 1⟩], 0⟩)],
    [], [], [], 4, -1, -1, false, -1, []⟩

/-- Witness for C3 at concrete inputs: an aligned two-leaf cursor refills
into an invariant-satisfying container and both `next` variants keep the
invariant; a misaligned two-leaf cursor asserts; the aligned one does not. -/
theorem sameVersion_invariant_witness :
    mergeStateW3After.sameVersionInv ∧ mergeStateW3Next.sameVersionInv ∧
    mergeStateW3UNext.sameVersionInv ∧
    mergeStateW3Bad.tryFillCursorContainer = none ∧
    (mergeStateW3.tryFillCursorContainer).isSome = true := by
  have h := sameVersion_invariant
    mergeStateW3 mergeStateW3After true (by decide) (by decide)
    mergeStateW3After mergeStateW3Next (by decide) (by decide)
    (by
      intro t ht
      fin_cases ht <;>
        exact ⟨_, rfl, by decide, by decide⟩)
    (by decide)
    { mergeStateW3After with ordered := false } mergeStateW3UNext (by decide) (by decide)
    (by
      intro t ht
      fin_cases ht <;>
        exact ⟨_, rfl, by decide, by decide⟩)
    (by decide)
    mergeStateW3Bad 1 2
    ⟨1, 5, true, 4, -1, -1, [⟨5, 1, Message.mutation 0⟩], 0⟩
    ⟨2, 5, true, 4, -1, -1, [⟨6, 1, Message.mutation 1⟩], 0⟩
    (by decide) (by decide) (by decide) (by decide) (by decide) (by decide)
    mergeStateW3 (by decide) (by decide) (by decide)
  exact h

/-! ### The `advanceTo` protocol

`advanceTo` (lines 736-764) is generic: it drives any `PeekCursorBase`
through the virtual `hasRemaining` / `get` / `next` interface (the iterator
protocol).  `CursorOps` captures that interface; `hasRem` returns the state
after `hasRemaining()`'s iterator normalization together with its result. -/

structure CursorOps (σ : Type) where
  hasRem : σ → σ × Bool
  get : σ → VersionSubsequenceMessage
  next : σ → σ

/-- A cursor's `hasRemaining` is stable: re-asking does not move the cursor
further (true of every cursor in the file: the skip loop is idempotent). -/
def CursorOps.idem {σ : Type} (ops : CursorOps σ) : Prop :=
  ∀ s, ops.hasRem (ops.hasRem s).1 = ops.hasRem s

/-- The finite sequence of triples the cursor yields locally from state `s`
(the `for (vsm : *cursor)` iteration, fueled). -/
def streamOf {σ : Type} (ops : CursorOps σ) : Nat → σ → List VersionSubsequenceMessage
  | 0, _ => []
  | f + 1, s =>
    if (ops.hasRem s).2 then
      ops.get (ops.hasRem s).1 :: streamOf ops f (ops.next (ops.hasRem s).1)
    else []

/-- The inner scan of `advanceTo` (line 747): advance while the current
triple is at the target version with a smaller subsequence.  Returns the
final position; `none` models the end-iterator dereference of line 749
(undefined behaviour in the source) and fuel exhaustion. -/
def advanceToInner {σ : Type} (ops : CursorOps σ) : Nat → σ → Int → Nat → Option σ
  | 0, _, _, _ => none
  | f + 1, s, v, sub =>
    if (ops.hasRem s).2 ∧ (ops.get (ops.hasRem s).1).version = v ∧
        (ops.get (ops.hasRem s).1).subsequence < sub then
      advanceToInner ops f (ops.next (ops.hasRem s).1) v sub
    else if (ops.hasRem s).2 then some (ops.hasRem s).1
    else none

/-- The outer loop of `advanceTo` (lines 739-754), without the remote refill:
`none` when the local data runs out (the source would then await
`remoteMoreAvailable`). -/
def advanceToLoop {σ : Type} (ops : CursorOps σ) : Nat → σ → Int → Nat → Option σ
  | 0, _, _, _ => none
  | f + 1, s, v, sub =>
    if (ops.hasRem s).2 then
      if (ops.get (ops.hasRem s).1).version > v then some (ops.hasRem s).1
      else if (ops.get (ops.hasRem s).1).version = v then
        match advanceToInner ops (f + 1) (ops.hasRem s).1 v sub with
        | none => none
        | some s₂ =>
          if (ops.get s₂).version > v ∨ (ops.get s₂).subsequence ≥ sub then some s₂
          else advanceToLoop ops f (ops.next s₂) v sub
      else advanceToLoop ops f (ops.next (ops.hasRem s).1) v sub
    else none

theorem hasRem_fix {σ : Type} (ops : CursorOps σ) (hidem : ops.idem) (s s₁ : σ) (b : Bool)
    (h : ops.hasRem s = (s₁, b)) : ops.hasRem s₁ = (s₁, b) := by
  have := hidem s
  rw [h] at this
  exact this

theorem streamOf_norm {σ : Type} (ops : CursorOps σ) (hidem : ops.idem)
    (f : Nat) (s : σ) : streamOf ops f (ops.hasRem s).1 = streamOf ops f s := by
  cases f with
  | zero => rfl
  | succ g =>
    show streamOf ops (g + 1) (ops.hasRem s).1 = streamOf ops (g + 1) s
    unfold streamOf
    rw [hidem s]

theorem advanceToInner_mono {σ : Type} (ops : CursorOps σ) (f : Nat) (s : σ)
    (v : Int) (sub : Nat) (x : σ) (h : advanceToInner ops f s v sub = some x) :
    advanceToInner ops (f + 1) s v sub = some x := by
  induction f generalizing s with
  | zero => exact absurd h (by simp [advanceToInner])
  | succ g ih =>
    unfold advanceToInner at h ⊢
    split at h
    · rename_i hcond
      rw [if_pos hcond]
      exact ih _ h
    · rename_i hcond
      rw [if_neg hcond]
      exact h

theorem advanceToInner_reaches {σ : Type} (ops : CursorOps σ) (hidem : ops.idem)
    (v : Int) (sub : Nat) (msg : Message) :
    ∀ (F : Nat) (s₁ : σ), ops.hasRem s₁ = (s₁, true) →
      List.Pairwise lexLt ((streamOf ops (F + 1) s₁).map VersionSubsequenceMessage.key) →
      (⟨v, sub, msg⟩ : VersionSubsequenceMessage) ∈ streamOf ops (F + 1) s₁ →
      (ops.get s₁).version = v →
      ∃ s₂, advanceToInner ops (F + 1) s₁ v sub = some s₂ ∧
        ops.get s₂ = ⟨v, sub, msg⟩ := by
  intro F
  induction F with
  | zero =>
    intro s₁ hrem hsort hmem hver
    unfold streamOf at hmem
    rw [hrem] at hmem
    rw [if_pos (show ((s₁, true) : σ × Bool).2 = true from rfl)] at hmem
    rcases List.mem_cons.mp hmem with he | hm
    · unfold advanceToInner
      rw [hrem]
      simp only
      rw [if_neg (by
        rw [← he]
        simp)]
      exact ⟨s₁, by simp, he.symm⟩
    · exact absurd hm (List.not_mem_nil _)
  | succ G ih =>
    intro s₁ hrem hsort hmem hver
    have hstream : streamOf ops (G + 1 + 1) s₁ =
        ops.get s₁ :: streamOf ops (G + 1) (ops.next s₁) := by
      unfold streamOf
      rw [hrem]
      rfl
    rw [hstream] at hmem hsort
    simp only [List.map_cons, List.pairwise_cons] at hsort
    rcases List.mem_cons.mp hmem with he | hm
    · -- the head is the target: the scan stops immediately
      unfold advanceToInner
      rw [hrem]
      simp only
      rw [if_neg (by
        rw [← he]
        simp)]
      exact ⟨s₁, by simp, he.symm⟩
    · -- the target is deeper: the head is at the target version with a
      -- smaller subsequence, so the scan advances
      have hlt : lexLt (ops.get s₁).key (v, sub) := by
        have := hsort.1 _ (List.mem_map.mpr ⟨_, hm, rfl⟩)
        exact this
      have hsub : (ops.get s₁).subsequence < sub := by
        unfold lexLt VersionSubsequenceMessage.key at hlt
        simp only at hlt
        omega
      have hnonempty : streamOf ops (G + 1) (ops.next s₁) ≠ [] :=
        fun h0 => absurd (h0 ▸ hm) (List.not_mem_nil _)
      have hrem₂ : (ops.hasRem (ops.next s₁)).2 = true := by
        by_contra hb
        unfold streamOf at hnonempty
        rw [if_neg hb] at hnonempty
        exact hnonempty rfl
      obtain ⟨s₃, hs₃⟩ : ∃ s₃, ops.hasRem (ops.next s₁) = (s₃, true) :=
        ⟨(ops.hasRem (ops.next s₁)).1, by rw [← hrem₂]⟩
      have hfix₃ : ops.hasRem s₃ = (s₃, true) := hasRem_fix ops hidem _ _ _ hs₃
      have hstream₃ : streamOf ops (G + 1) s₃ = streamOf ops (G + 1) (ops.next s₁) := by
        have := streamOf_norm ops hidem (G + 1) (ops.next s₁)
        rw [hs₃] at this
        exact this
      have hver₃ : (ops.get s₃).version = v := by
        -- the head of the tail carries a key strictly between the old head
        -- and the target (inclusive), hence is still at version v
        cases hG : streamOf ops (G + 1) (ops.next s₁) with
        | nil => exact absurd hG hnonempty
        | cons e rest =>
          have hhead : e = ops.get s₃ := by
            unfold streamOf at hG
            rw [hs₃] at hG
            rw [if_pos (show ((s₃, true) : σ × Bool).2 = true from rfl)] at hG
            injection hG with h1 h2
            exact h1.symm
          have hmem₂ : (⟨v, sub, msg⟩ : VersionSubsequenceMessage) ∈ e :: rest := hG ▸ hm
          have hkey : lexLt (ops.get s₁).key e.key :=
            hsort.1 _ (List.mem_map.mpr ⟨e, hG ▸ List.mem_cons_self _ _, rfl⟩)
          rcases List.mem_cons.mp hmem₂ with he₂ | hm₂
          · rw [hhead] at he₂
            rw [← he₂]
          · -- the target lies below e, and the tail is sorted, so
            -- key e ≤ key target; combined with key s₁ < key e and
            -- version s₁ = v this forces version e = v
            have hsort₂ : List.Pairwise lexLt ((e :: rest).map VersionSubsequenceMessage.key) := by
              rw [← hG]
              exact hsort.2
            simp only [List.map_cons, List.pairwise_cons] at hsort₂
            have hlt₂ : lexLt e.key (v, sub) := by
              have := hsort₂.1 _ (List.mem_map.mpr ⟨_, hm₂, rfl⟩)
              exact this
            rw [hhead] at hkey hlt₂
            unfold lexLt VersionSubsequenceMessage.key at hkey hlt₂
            simp only at hkey hlt₂
            rw [hver] at hkey
            omega
      have hmem₃ : (⟨v, sub, msg⟩ : VersionSubsequenceMessage) ∈
          streamOf ops (G + 1) s₃ := by rw [hstream₃]; exact hm
      have hsort₃ : List.Pairwise lexLt
          ((streamOf ops (G + 1) s₃).map VersionSubsequenceMessage.key) := by
        rw [hstream₃]
        exact hsort.2
      obtain ⟨s₂, hrun, hget⟩ := ih s₃ hfix₃ hsort₃ hmem₃ hver₃
      refine ⟨s₂, ?_, hget⟩
      unfold advanceToInner
      rw [hrem]
      simp only
      rw [if_pos ⟨by trivial, hver, hsub⟩]
      -- one recursion step lands on `next s₁`; normalize it to `s₃`
      have hnorm : advanceToInner ops (G + 1) (ops.next s₁) v sub =
          advanceToInner ops (G + 1) s₃ v sub := by
        unfold advanceToInner
        rw [hs₃, hfix₃]
      rw [hnorm]
      exact hrun

theorem advanceToLoop_norm {σ : Type} (ops : CursorOps σ) (hidem : ops.idem)
    (f : Nat) (s : σ) (v : Int) (sub : Nat) :
    advanceToLoop ops f (ops.hasRem s).1 v sub = advanceToLoop ops f s v sub := by
  cases f with
  | zero => rfl
  | succ g =>
    show advanceToLoop ops (g + 1) (ops.hasRem s).1 v sub =
      advanceToLoop ops (g + 1) s v sub
    unfold advanceToLoop
    rw [hidem s]

theorem advanceToLoop_reaches {σ : Type} (ops : CursorOps σ) (hidem : ops.idem)
    (v : Int) (sub : Nat) (msg : Message) :
    ∀ (F : Nat) (s₁ : σ), ops.hasRem s₁ = (s₁, true) →
      List.Pairwise lexLt ((streamOf ops F s₁).map VersionSubsequenceMessage.key) →
      (⟨v, sub, msg⟩ : VersionSubsequenceMessage) ∈ streamOf ops F s₁ →
      ∃ s₂, advanceToLoop ops F s₁ v sub = some s₂ ∧
        ops.get s₂ = ⟨v, sub, msg⟩ := by
  intro F
  induction F with
  | zero =>
    intro s₁ hrem hsort hmem
    unfold streamOf at hmem
    exact absurd hmem (List.not_mem_nil _)
  | succ G ih =>
    intro s₁ hrem hsort hmem
    have hsort₀ := hsort
    have hmem₀ := hmem
    have hstream : streamOf ops (G + 1) s₁ =
        ops.get s₁ :: streamOf ops G (ops.next s₁) := by
      conv_lhs => unfold streamOf
      rw [hrem]
      rfl
    rw [hstream] at hmem hsort
    simp only [List.map_cons, List.pairwise_cons] at hsort
    unfold advanceToLoop
    rw [hrem]
    simp only
    rw [if_pos trivial]
    by_cases hgt : (ops.get s₁).version > v
    · -- impossible: the stream is sorted and contains the target, so the
      -- head key cannot already exceed the target key
      exfalso
      rcases List.mem_cons.mp hmem with he | hm
      · have hv : (ops.get s₁).version = v := by rw [← he]
        omega
      · have hlt := hsort.1 _ (List.mem_map.mpr ⟨_, hm, rfl⟩)
        unfold lexLt VersionSubsequenceMessage.key at hlt
        simp only at hlt
        omega
    · rw [if_neg hgt]
      by_cases heq : (ops.get s₁).version = v
      · rw [if_pos heq]
        obtain ⟨s₂, hrun, hget⟩ :=
          advanceToInner_reaches ops hidem v sub msg G s₁ hrem hsort₀ hmem₀ heq
        refine ⟨s₂, ?_, hget⟩
        rw [hrun]
        show (if (ops.get s₂).version > v ∨ (ops.get s₂).subsequence ≥ sub then some s₂
          else advanceToLoop ops G (ops.next s₂) v sub) = some s₂
        rw [if_pos (Or.inr (by rw [hget]))]
      · rw [if_neg heq]
        -- the head is below the target: the outer loop advances
        have hm : (⟨v, sub, msg⟩ : VersionSubsequenceMessage) ∈
            streamOf ops G (ops.next s₁) := by
          rcases List.mem_cons.mp hmem with he | hm
          · exact absurd (by rw [← he]) heq
          · exact hm
        have hnonempty : streamOf ops G (ops.next s₁) ≠ [] :=
          fun h0 => absurd (h0 ▸ hm) (List.not_mem_nil _)
        have hrem₂ : (ops.hasRem (ops.next s₁)).2 = true := by
          cases G with
          | zero => exact absurd rfl hnonempty
          | succ H =>
            by_contra hb
            unfold streamOf at hnonempty
            rw [if_neg hb] at hnonempty
            exact hnonempty rfl
        obtain ⟨s₃, hs₃⟩ : ∃ s₃, ops.hasRem (ops.next s₁) = (s₃, true) :=
          ⟨(ops.hasRem (ops.next s₁)).1, by rw [← hrem₂]⟩
        have hfix₃ : ops.hasRem s₃ = (s₃, true) := hasRem_fix ops hidem _ _ _ hs₃
        have hstream₃ : streamOf ops G s₃ = streamOf ops G (ops.next s₁) := by
          have h := streamOf_norm ops hidem G (ops.next s₁)
          rw [hs₃] at h
          exact h
        have hmem₃ : (⟨v, sub, msg⟩ : VersionSubsequenceMessage) ∈
            streamOf ops G s₃ := by
          rw [hstream₃]
          exact hm
        have hsort₃ : List.Pairwise lexLt
            ((streamOf ops G s₃).map VersionSubsequenceMessage.key) := by
          rw [hstream₃]
          exact hsort.2
        obtain ⟨s₂, hrun, hget⟩ := ih s₃ hfix₃ hsort₃ hmem₃
        have hloop : advanceToLoop ops G (ops.next s₁) v sub =
            advanceToLoop ops G s₃ v sub := by
          have h := advanceToLoop_norm ops hidem G (ops.next s₁) v sub
          rw [hs₃] at h
          exact h.symm
        refine ⟨s₂, ?_, hget⟩
        rw [hloop]
        exact hrun

theorem advanceToLoop_idem {σ : Type} (ops : CursorOps σ) (hidem : ops.idem)
    (f : Nat) (s : σ) (v : Int) (sub : Nat)
    (hrem : (ops.hasRem s).2 = true)
    (hle : v < (ops.get (ops.hasRem s).1).version ∨
      (v = (ops.get (ops.hasRem s).1).version ∧
        sub ≤ (ops.get (ops.hasRem s).1).subsequence)) :
    advanceToLoop ops (f + 1) s v sub = some (ops.hasRem s).1 := by
  unfold advanceToLoop
  rw [if_pos hrem]
  rcases hle with hlt | ⟨heq, hsub⟩
  · rw [if_pos (by omega : (ops.get (ops.hasRem s).1).version > v)]
  · rw [if_neg (by omega : ¬ (ops.get (ops.hasRem s).1).version > v)]
    rw [if_pos heq.symm]
    have hinner : advanceToInner ops (f + 1) (ops.hasRem s).1 v sub =
        some (ops.hasRem s).1 := by
      unfold advanceToInner
      rw [hidem s]
      rw [if_neg (fun hc => absurd hc.2.2 (Nat.not_lt.mpr hsub))]
      rw [if_pos hrem]
    rw [hinner]
    show (if (ops.get (ops.hasRem s).1).version > v ∨
        (ops.get (ops.hasRem s).1).subsequence ≥ sub then some (ops.hasRem s).1
      else advanceToLoop ops f (ops.next (ops.hasRem s).1) v sub) = some (ops.hasRem s).1
    rw [if_pos (Or.inr hsub)]

theorem skipIdx_idem (buf : List VersionSubsequenceMessage) (i : Nat) :
    skipIdx buf (skipIdx buf i) = skipIdx buf i := by
  by_cases h : i < buf.length
  · by_cases hmsg : (buf.get ⟨i, h⟩).message.isEmptyVersionMessage
    · have hstep : skipIdx buf i = skipIdx buf (i + 1) := by
        conv_lhs => rw [skipIdx]
        rw [dif_pos h, if_pos hmsg]
      rw [hstep]
      exact skipIdx_idem buf (i + 1)
    · have hstop : skipIdx buf i = i := by
        conv_lhs => rw [skipIdx]
        rw [dif_pos h, if_neg hmsg]
      rw [hstop]
      conv_lhs => rw [skipIdx]
      rw [dif_pos h, if_neg hmsg]
  · have hstop : skipIdx buf i = i := by
      conv_lhs => rw [skipIdx]
      rw [dif_neg h]
    rw [hstop]
    conv_lhs => rw [skipIdx]
    rw [dif_neg h]
termination_by buf.length - i

theorem hasRemainingState_idem (c : StorageTeamPeekCursor) :
    c.hasRemainingState.hasRemainingState = c.hasRemainingState := by
  by_cases h : c.reportEmptyVersion
  · rw [hasRemainingState_report c h, hasRemainingState_report c h]
  · have h1 : c.hasRemainingState = { c with iter := skipIdx c.buffer c.iter } := by
      unfold StorageTeamPeekCursor.hasRemainingState
      rw [if_neg h]
    rw [h1]
    unfold StorageTeamPeekCursor.hasRemainingState
    simp only
    rw [if_neg h]
    simp only [skipIdx_idem]

theorem hasRemaining_idem (c : StorageTeamPeekCursor) :
    c.hasRemainingState.hasRemaining = c.hasRemaining := by
  unfold StorageTeamPeekCursor.hasRemaining
  rw [hasRemainingState_idem c, hasRemainingState_buffer c]

/-- The leaf cursor, packaged under the abstract iteration interface. -/
def leafCursorOps : CursorOps StorageTeamPeekCursor where
  hasRem := fun c => (c.hasRemainingState, c.hasRemaining)
  get := StorageTeamPeekCursor.get
  next := StorageTeamPeekCursor.next

theorem leafCursorOps_idem : leafCursorOps.idem := by
  intro c
  show (c.hasRemainingState.hasRemainingState, c.hasRemainingState.hasRemaining)
      = (c.hasRemainingState, c.hasRemaining)
  rw [hasRemainingState_idem c, hasRemaining_idem c]

instance lexLtDecidable (a b : Int × Nat) : Decidable (lexLt a b) := by
  unfold lexLt
  infer_instance

/-- Claim C8: for any cursor implementing the iteration interface with an
idempotent `hasRemaining` (true of every cursor in the file), if the triple
`(v, sub, msg)` occurs in the cursor's remaining stream — which is sorted by
`(version, subsequence)` — then `advanceTo(v, sub)` terminates on the local
data positioned exactly on that triple, so `get()` returns it; and whenever
the target `(v', sub')` is at or before the cursor's current position,
`advanceTo(v', sub')` returns with the cursor position unchanged. -/
theorem advanceTo_reaches_target_and_is_idempotent {σ : Type} (ops : CursorOps σ)
    (hidem : ops.idem) (v : Int) (sub : Nat) (msg : Message) (F : Nat) (s : σ)
    (hrem : ops.hasRem s = (s, true))
    (hsort : List.Pairwise lexLt ((streamOf ops F s).map VersionSubsequenceMessage.key))
    (hmem : (⟨v, sub, msg⟩ : VersionSubsequenceMessage) ∈ streamOf ops F s) :
    (∃ s₂, advanceToLoop ops F s v sub = some s₂ ∧ ops.get s₂ = ⟨v, sub, msg⟩) ∧
    (∀ (f : Nat) (v' : Int) (sub' : Nat),
      (v' < (ops.get s).version ∨
        (v' = (ops.get s).version ∧ sub' ≤ (ops.get s).subsequence)) →
      advanceToLoop ops (f + 1) s v' sub' = some s) := by
  constructor
  · exact advanceToLoop_reaches ops hidem v sub msg F s hrem hsort hmem
  · intro f v' sub' hle
    have h1 : (ops.hasRem s).1 = s := by rw [hrem]
    have h2 : (ops.hasRem s).2 = true := by rw [hrem]
    have h := advanceToLoop_idem ops hidem f s v' sub' h2 (by rw [h1]; exact hle)
    rw [h1] at h
    exact h

/-- Concrete leaf cursor used to witness the `advanceTo` property: two
mutations at version 5, subsequences 1 and 3, `reportEmptyVersion` set. -/
def advanceToWitnessCursor : StorageTeamPeekCursor :=
  { mkStorageTeamPeekCursor 5 1 true with
    buffer := [⟨5, 1, Message.mutation 0⟩, ⟨5, 3, Message.mutation 1⟩] }

/-- Witness for C8 at concrete inputs: the leaf cursor reaches the triple
`(5, 3)` from the front of its two-triple buffer, and any target at or
before `(5, 1)` leaves it in place. -/
theorem advanceTo_reaches_target_and_is_idempotent_witness :
    ((∃ s₂, advanceToLoop leafCursorOps 2 advanceToWitnessCursor 5 3 = some s₂ ∧
        leafCursorOps.get s₂ = ⟨5, 3, Message.mutation 1⟩) ∧
      (∀ (f : Nat) (v' : Int) (sub' : Nat),
        (v' < (leafCursorOps.get advanceToWitnessCursor).version ∨
          (v' = (leafCursorOps.get advanceToWitnessCursor).version ∧
            sub' ≤ (leafCursorOps.get advanceToWitnessCursor).subsequence)) →
        advanceToLoop leafCursorOps (f + 1) advanceToWitnessCursor v' sub' =
          some advanceToWitnessCursor)) :=
  advanceTo_reaches_target_and_is_idempotent leafCursorOps leafCursorOps_idem
    5 3 (Message.mutation 1) 2 advanceToWitnessCursor (by decide) (by decide) (by decide)

/-! ### Replay idempotence: the snapshot / reset protocol (claim C2) -/

/-- Shape of a merge cursor right after a successful `remoteMoreAvailable`:
the container is drained, the empty set was fully served, a snapshot is
pending, every leaf reports empty versions (enforced by `addCursorImpl`),
the leaf map holds distinct keys, every non-retired leaf exposes the common
version `v` at its iterator — whether freshly refilled (iterator at 0) or
still holding a partially consumed buffer whose consumed prefix lies strictly
below `v` — and every newly retired leaf is fully consumed. -/
def PostRefill (s : MergeState) (v : Int) : Prop :=
  s.container = [] ∧
  s.emptyCursorStorageTeamIDs = [] ∧
  s.needSnapshot = true ∧
  v ≠ invalidVersion ∧
  (s.mapper.map Prod.fst).Nodup ∧
  (∃ p ∈ s.mapper, p.1 ∉ s.retiredCursorStorageTeamIDs) ∧
  (∀ p ∈ s.mapper, p.2.reportEmptyVersion = true) ∧
  (∀ p ∈ s.mapper, p.1 ∉ s.retiredCursorStorageTeamIDs →
    p.2.iter < p.2.buffer.length ∧ p.2.getVersion = v ∧
    (∀ j, j < p.2.iter → (p.2.buffer.getD j default).version < v)) ∧
  (∀ p ∈ s.mapper, p.1 ∈ s.retiredCursorStorageTeamIDs →
    p.2.buffer.length ≤ p.2.iter)

/-- Per-leaf relation across a local drain: only the iterator may move, and
the iterator of a retired leaf does not move at all. -/
def drainRel (R : List Nat) (p q : Nat × StorageTeamPeekCursor) : Prop :=
  p.1 = q.1 ∧ p.2 = { q.2 with iter := p.2.iter } ∧ (p.1 ∈ R → p.2.iter = q.2.iter)

theorem drainRel_refl (R : List Nat) (p : Nat × StorageTeamPeekCursor) :
    drainRel R p p :=
  ⟨rfl, rfl, fun _ => rfl⟩

/-- Invariant maintained by the local drain between the snapshot capture and
`reset`: everything but the container, the empty set, the current version and
the leaf iterators stays frozen. -/
def ReplayInv (s₀ : MergeState) (v : Int) (C₁ : List Nat) (e : MergeState) : Prop :=
  e.ordered = s₀.ordered ∧
  e.retiredCursorStorageTeamIDs = s₀.retiredCursorStorageTeamIDs ∧
  e.needSnapshot = false ∧
  e.snapshotVersion = v ∧
  e.snapshotContainer = C₁ ∧
  e.maxKnownVersion = s₀.maxKnownVersion ∧
  e.minKnownCommittedVersion = s₀.minKnownCommittedVersion ∧
  List.Forall₂ (drainRel s₀.retiredCursorStorageTeamIDs) e.mapper s₀.mapper ∧
  (∀ t ∈ e.container, t ∉ s₀.retiredCursorStorageTeamIDs)

theorem forall₂_keys {R : List Nat} {E M : List (Nat × StorageTeamPeekCursor)}
    (h : List.Forall₂ (drainRel R) E M) : E.map Prod.fst = M.map Prod.fst := by
  induction h with
  | nil => rfl
  | cons h₁ h₂ ih =>
    simp only [List.map_cons]
    rw [h₁.1, ih]

theorem forall₂_report {R : List Nat} {E M : List (Nat × StorageTeamPeekCursor)}
    (h : List.Forall₂ (drainRel R) E M)
    (hM : ∀ q ∈ M, q.2.reportEmptyVersion = true) :
    ∀ p ∈ E, p.2.reportEmptyVersion = true := by
  induction h with
  | nil => intro p hp; exact absurd hp (List.not_mem_nil _)
  | cons h₁ h₂ ih =>
    rename_i a b l₁ l₂
    intro p hp
    rcases List.mem_cons.mp hp with he | hm
    · subst he
      rw [h₁.2.1]
      exact hM b (List.mem_cons_self _ _)
    · exact ih (fun q hq => hM q (List.mem_cons.mpr (Or.inr hq))) p hm

theorem forall₂_retired_dead {R : List Nat} {E M : List (Nat × StorageTeamPeekCursor)}
    (h : List.Forall₂ (drainRel R) E M)
    (hM : ∀ q ∈ M, q.1 ∈ R → q.2.buffer.length ≤ q.2.iter) :
    ∀ p ∈ E, p.1 ∈ R → p.2.buffer.length ≤ p.2.iter := by
  induction h with
  | nil => intro p hp; exact absurd hp (List.not_mem_nil _)
  | cons h₁ h₂ ih =>
    rename_i a b l₁ l₂
    intro p hp hpR
    rcases List.mem_cons.mp hp with he | hm
    · subst he
      have hb : p.1 ∈ R → p.2.iter = b.2.iter := h₁.2.2
      have hbuf : p.2.buffer = b.2.buffer := by rw [h₁.2.1]
      rw [hbuf, hb hpR]
      exact hM b (List.mem_cons_self _ _) (h₁.1 ▸ hpR)
    · exact ih (fun q hq => hM q (List.mem_cons.mpr (Or.inr hq))) p hm hpR

theorem not_liveC_of_exhausted (c : StorageTeamPeekCursor)
    (hrep : c.reportEmptyVersion = true) (hex : c.buffer.length ≤ c.iter) :
    ¬ liveC c := by
  unfold liveC
  rw [hasRemainingState_report c hrep]
  omega

theorem forall₂_lookup {R : List Nat} {E M : List (Nat × StorageTeamPeekCursor)}
    (h : List.Forall₂ (drainRel R) E M) (t : Nat) (c : StorageTeamPeekCursor)
    (hlk : E.lookup t = some c) :
    ∃ q ∈ M, q.1 = t ∧ drainRel R (t, c) q := by
  induction h with
  | nil => simp [List.lookup] at hlk
  | cons h₁ h₂ ih =>
    rename_i a b l₁ l₂
    simp only [List.lookup] at hlk
    by_cases he : t = a.1
    · rw [(by simp [he] : (t == a.1) = true)] at hlk
      injection hlk with h₂c
      refine ⟨b, List.mem_cons_self _ _, by rw [← h₁.1, he], ?_⟩
      have ha : a = (t, c) := by
        obtain ⟨a₁, a₂⟩ := a
        simp only at he h₂c
        rw [he, h₂c]
      rw [← ha]
      exact h₁
    · rw [(by simp [he] : (t == a.1) = false)] at hlk
      obtain ⟨q, hq, hqt, hrel⟩ := ih hlk
      exact ⟨q, List.mem_cons.mpr (Or.inr hq), hqt, hrel⟩

theorem map_update_id {t : Nat} {c₂ : StorageTeamPeekCursor}
    (l : List (Nat × StorageTeamPeekCursor)) (hne : ∀ p ∈ l, p.1 ≠ t) :
    l.map (fun p => if p.1 = t then (t, c₂) else p) = l := by
  induction l with
  | nil => rfl
  | cons p ps ih =>
    simp only [List.map_cons]
    rw [if_neg (hne p (List.mem_cons_self _ _)),
      ih (fun q hq => hne q (List.mem_cons.mpr (Or.inr hq)))]

theorem forall₂_updateCursor {R : List Nat} {E M : List (Nat × StorageTeamPeekCursor)}
    (h : List.Forall₂ (drainRel R) E M) (t : Nat) (c₂ : StorageTeamPeekCursor) :
    (E.map Prod.fst).Nodup →
    (∀ q ∈ M, q.1 = t → drainRel R (t, c₂) q) →
    List.Forall₂ (drainRel R)
      (E.map (fun p => if p.1 = t then (t, c₂) else p)) M := by
  induction h with
  | nil =>
    intro _ _
    exact List.Forall₂.nil
  | cons h₁ h₂ ih =>
    rename_i a b l₁ l₂
    intro hnd hrel
    simp only [List.map_cons, List.nodup_cons] at hnd ⊢
    by_cases hat : a.1 = t
    · rw [if_pos hat]
      have hne : ∀ p ∈ l₁, p.1 ≠ t := by
        intro p hp hpt
        apply hnd.1
        rw [hat, ← hpt]
        exact List.mem_map.mpr ⟨p, hp, rfl⟩
      rw [map_update_id l₁ hne]
      exact List.Forall₂.cons (hrel b (List.mem_cons_self _ _) (by rw [← h₁.1, hat])) h₂
    · rw [if_neg hat]
      exact List.Forall₂.cons h₁
        (ih hnd.2 (fun q hq hqt => hrel q (List.mem_cons.mpr (Or.inr hq)) hqt))

theorem tffScan_es_dead (cv : Int) (first : Bool)
    (m : List (Nat × StorageTeamPeekCursor))
    (m' : List (Nat × StorageTeamPeekCursor)) (es : List Nat) (cv' : Int) (f' : Bool)
    (h : tffScan cv first m = some (m', es, cv', f')) :
    ∀ t ∈ es, ∃ p ∈ m, p.1 = t ∧ ¬ liveC p.2 := by
  induction m generalizing cv first m' es cv' f' with
  | nil =>
    simp only [tffScan, Option.some.injEq, Prod.mk.injEq] at h
    intro t ht
    rw [← h.2.1] at ht
    exact absurd ht (List.not_mem_nil _)
  | cons p ps ih =>
    obtain ⟨u, c⟩ := p
    intro t ht
    simp only [tffScan] at h
    split at h
    · rename_i hlive
      split at h
      · cases hr : tffScan c.hasRemainingState.getVersion false ps with
        | none => rw [hr] at h; exact absurd h (by simp)
        | some r₂ =>
          rw [hr] at h
          obtain ⟨m₂, es₂, cv₂, f₂⟩ := r₂
          simp only [Option.some.injEq, Prod.mk.injEq] at h
          obtain ⟨h1, h2, h3, h4⟩ := h
          rw [← h2] at ht
          obtain ⟨q, hq, hqt, hqd⟩ := ih _ _ _ _ _ _ hr t ht
          exact ⟨q, List.mem_cons.mpr (Or.inr hq), hqt, hqd⟩
      · split at h
        · cases hr : tffScan cv first ps with
          | none => rw [hr] at h; exact absurd h (by simp)
          | some r₂ =>
            rw [hr] at h
            obtain ⟨m₂, es₂, cv₂, f₂⟩ := r₂
            simp only [Option.some.injEq, Prod.mk.injEq] at h
            obtain ⟨h1, h2, h3, h4⟩ := h
            rw [← h2] at ht
            obtain ⟨q, hq, hqt, hqd⟩ := ih _ _ _ _ _ _ hr t ht
            exact ⟨q, List.mem_cons.mpr (Or.inr hq), hqt, hqd⟩
        · exact absurd h (by simp)
    · rename_i hdead
      cases hr : tffScan cv first ps with
      | none => rw [hr] at h; exact absurd h (by simp)
      | some r₂ =>
        rw [hr] at h
        obtain ⟨m₂, es₂, cv₂, f₂⟩ := r₂
        simp only [Option.some.injEq, Prod.mk.injEq] at h
        obtain ⟨h1, h2, h3, h4⟩ := h
        rw [← h2] at ht
        rcases List.mem_cons.mp ht with he | hm
        · exact ⟨(u, c), List.mem_cons_self _ _, he.symm, hdead⟩
        · obtain ⟨q, hq, hqt, hqd⟩ := ih _ _ _ _ _ _ hr t hm
          exact ⟨q, List.mem_cons.mpr (Or.inr hq), hqt, hqd⟩


theorem mapper_hrs_id (m : List (Nat × StorageTeamPeekCursor))
    (hrep : ∀ p ∈ m, p.2.reportEmptyVersion = true) :
    m.map (fun p => (p.1, p.2.hasRemainingState)) = m := by
  induction m with
  | nil => rfl
  | cons p ps ih =>
    simp only [List.map_cons]
    rw [hasRemainingState_report p.2 (hrep p (List.mem_cons_self _ _)),
      ih (fun q hq => hrep q (List.mem_cons.mpr (Or.inr hq)))]

theorem nodup_key_eq {M : List (Nat × StorageTeamPeekCursor)}
    (hnd : (M.map Prod.fst).Nodup) {q q' : Nat × StorageTeamPeekCursor}
    (hq : q ∈ M) (hq' : q' ∈ M) (hk : q.1 = q'.1) : q = q' := by
  induction M with
  | nil => exact absurd hq (List.not_mem_nil _)
  | cons p ps ih =>
    simp only [List.map_cons, List.nodup_cons] at hnd
    rcases List.mem_cons.mp hq with h1 | h1 <;> rcases List.mem_cons.mp hq' with h2 | h2
    · rw [h1, ← h2]
    · subst h1
      exact absurd (by rw [hk]; exact List.mem_map.mpr ⟨q', h2, rfl⟩) hnd.1
    · subst h2
      exact absurd (by rw [← hk]; exact List.mem_map.mpr ⟨q, h1, rfl⟩) hnd.1
    · exact ih hnd.2 h1 h2

theorem mergeState_ext (a b : MergeState)
    (h₁ : a.ordered = b.ordered)
    (h₂ : a.mapper = b.mapper)
    (h₃ : a.container = b.container)
    (h₄ : a.emptyCursorStorageTeamIDs = b.emptyCursorStorageTeamIDs)
    (h₅ : a.retiredCursorStorageTeamIDs = b.retiredCursorStorageTeamIDs)
    (h₆ : a.currentVersion = b.currentVersion)
    (h₇ : a.maxKnownVersion = b.maxKnownVersion)
    (h₈ : a.minKnownCommittedVersion = b.minKnownCommittedVersion)
    (h₉ : a.needSnapshot = b.needSnapshot)
    (h₁₀ : a.snapshotVersion = b.snapshotVersion)
    (h₁₁ : a.snapshotContainer = b.snapshotContainer) : a = b := by
  cases a
  cases b
  simp only at h₁ h₂ h₃ h₄ h₅ h₆ h₇ h₈ h₉ h₁₀ h₁₁
  subst h₁ h₂ h₃ h₄ h₅ h₆ h₇ h₈ h₉ h₁₀ h₁₁
  rfl

theorem scanToVersion_stop (c : StorageTeamPeekCursor) (v : Int)
    (hrep : c.reportEmptyVersion = true)
    (hstop : ¬ c.get.version < v) :
    c.scanToVersion v = c := by
  unfold StorageTeamPeekCursor.scanToVersion
  rw [hasRemainingState_report c hrep]
  rw [dif_neg (fun hc => hstop hc.2)]

theorem scanToVersion_reaches (v : Int) (i : Nat) (c : StorageTeamPeekCursor)
    (hrep : c.reportEmptyVersion = true)
    (hle : c.iter ≤ i) (hilen : i < c.buffer.length)
    (hpre : ∀ j, c.iter ≤ j → j < i → (c.buffer.getD j default).version < v)
    (hstop : ¬ (c.buffer.getD i default).version < v) :
    c.scanToVersion v = { c with iter := i } := by
  rcases Nat.lt_or_ge c.iter i with hlt | hge
  · -- the consumed prefix is not yet rewound past: scan one step forward
    have hclen : c.iter < c.buffer.length := Nat.lt_trans hlt hilen
    have hver : c.get.version < v := hpre c.iter (Nat.le_refl _) hlt
    unfold StorageTeamPeekCursor.scanToVersion
    rw [hasRemainingState_report c hrep]
    rw [dif_pos ⟨hclen, hver⟩]
    exact scanToVersion_reaches v i ({ c with iter := c.iter + 1 } :
        StorageTeamPeekCursor)
      hrep hlt hilen (fun j hj hji => hpre j (Nat.le_of_succ_le hj) hji) hstop
  · -- the front is already at the restored version: the scan stops here
    have heq : c.iter = i := Nat.le_antisymm hle hge
    unfold StorageTeamPeekCursor.scanToVersion
    rw [hasRemainingState_report c hrep]
    rw [dif_neg (fun hc => hstop (by rw [← heq]; exact hc.2))]
    rw [← heq]
termination_by i - c.iter
decreasing_by
  omega

theorem mapper_reset_recover (R : List Nat) (v : Int)
    {E M : List (Nat × StorageTeamPeekCursor)}
    (hrel : List.Forall₂ (drainRel R) E M)
    (hrep : ∀ q ∈ M, q.2.reportEmptyVersion = true)
    (hlive : ∀ q ∈ M, q.1 ∉ R → q.2.iter < q.2.buffer.length ∧ q.2.getVersion = v ∧
      (∀ j, j < q.2.iter → (q.2.buffer.getD j default).version < v)) :
    E.map (fun p => if p.1 ∈ R then p else (p.1, p.2.reset.scanToVersion v)) = M := by
  induction hrel with
  | nil => rfl
  | cons h₁ h₂ ih =>
    rename_i a b l₁ l₂
    simp only [List.map_cons]
    rw [ih (fun q hq => hrep q (List.mem_cons.mpr (Or.inr hq)))
      (fun q hq => hlive q (List.mem_cons.mpr (Or.inr hq)))]
    by_cases haR : a.1 ∈ R
    · rw [if_pos haR]
      have hi : a.2.iter = b.2.iter := h₁.2.2 haR
      have ha2 : a.2 = b.2 := by
        rw [h₁.2.1, hi]
      have ha : a = b := by
        obtain ⟨a₁, a₂⟩ := a
        obtain ⟨b₁, b₂⟩ := b
        simp only at ha2 ⊢
        rw [(by exact h₁.1 : a₁ = b₁), ha2]
      rw [ha]
    · rw [if_neg haR]
      have hbR : b.1 ∉ R := by rw [← h₁.1]; exact haR
      obtain ⟨hbl, hv, hpre⟩ := hlive b (List.mem_cons_self _ _) hbR
      have hrepb : b.2.reportEmptyVersion = true := hrep b (List.mem_cons_self _ _)
      have hreset : a.2.reset = ({ b.2 with iter := 0 } : StorageTeamPeekCursor) := by
        show { a.2 with iter := 0 } = ({ b.2 with iter := 0 } : StorageTeamPeekCursor)
        rw [h₁.2.1]
      have hscan : ({ b.2 with iter := 0 } : StorageTeamPeekCursor).scanToVersion v =
          b.2 := by
        have h₂ := scanToVersion_reaches v b.2.iter
          ({ b.2 with iter := 0 } : StorageTeamPeekCursor) hrepb (Nat.zero_le _) hbl
          (fun j _ hj => hpre j hj)
          (by
            show ¬ (b.2.buffer.getD b.2.iter default).version < v
            have h₃ : (b.2.buffer.getD b.2.iter default).version = v := hv
            omega)
        exact h₂
      have hhead : (a.1, a.2.reset.scanToVersion v) = b := by
        rw [hreset, hscan, h₁.1]
      rw [hhead]

theorem foldl_pushFilter_frame (es rs : List Nat)
    (l : List (Nat × StorageTeamPeekCursor)) (s : MergeState) :
    (l.foldl (fun acc p => if p.1 ∉ es ∧ p.1 ∉ rs then acc.push p.1 else acc) s).ordered =
      s.ordered ∧
    (l.foldl (fun acc p => if p.1 ∉ es ∧ p.1 ∉ rs then acc.push p.1 else acc)
      s).retiredCursorStorageTeamIDs = s.retiredCursorStorageTeamIDs ∧
    (l.foldl (fun acc p => if p.1 ∉ es ∧ p.1 ∉ rs then acc.push p.1 else acc)
      s).needSnapshot = s.needSnapshot ∧
    (l.foldl (fun acc p => if p.1 ∉ es ∧ p.1 ∉ rs then acc.push p.1 else acc)
      s).snapshotVersion = s.snapshotVersion ∧
    (l.foldl (fun acc p => if p.1 ∉ es ∧ p.1 ∉ rs then acc.push p.1 else acc)
      s).snapshotContainer = s.snapshotContainer ∧
    (l.foldl (fun acc p => if p.1 ∉ es ∧ p.1 ∉ rs then acc.push p.1 else acc)
      s).maxKnownVersion = s.maxKnownVersion ∧
    (l.foldl (fun acc p => if p.1 ∉ es ∧ p.1 ∉ rs then acc.push p.1 else acc)
      s).minKnownCommittedVersion = s.minKnownCommittedVersion ∧
    (l.foldl (fun acc p => if p.1 ∉ es ∧ p.1 ∉ rs then acc.push p.1 else acc)
      s).emptyCursorStorageTeamIDs = s.emptyCursorStorageTeamIDs := by
  obtain ⟨L, hL⟩ := foldl_pushFilter_shape es rs l s
  rw [hL]
  exact ⟨rfl, rfl, rfl, rfl, rfl, rfl, rfl, rfl⟩

theorem tryFill_replay (e : MergeState) (s' : MergeState) (b : Bool)
    (hrep : ∀ p ∈ e.mapper, p.2.reportEmptyVersion = true)
    (hdead : ∀ p ∈ e.mapper, p.1 ∈ e.retiredCursorStorageTeamIDs → ¬ liveC p.2)
    (h : e.tryFillCursorContainer = some (s', b)) :
    s'.mapper = e.mapper ∧
    s'.ordered = e.ordered ∧
    s'.retiredCursorStorageTeamIDs = e.retiredCursorStorageTeamIDs ∧
    s'.needSnapshot = e.needSnapshot ∧
    s'.snapshotVersion = e.snapshotVersion ∧
    s'.snapshotContainer = e.snapshotContainer ∧
    s'.maxKnownVersion = e.maxKnownVersion ∧
    s'.minKnownCommittedVersion = e.minKnownCommittedVersion ∧
    (∀ t ∈ s'.container, t ∉ e.retiredCursorStorageTeamIDs) := by
  unfold MergeState.tryFillCursorContainer at h
  split at h
  · exact absurd h (by simp)
  · split at h
    · exact absurd h (by simp)
    · rename_i hlen hcont
      have hcont₂ : e.container = [] := by
        rw [not_not, List.isEmpty_iff] at hcont
        exact hcont
      cases hscan : tffScan invalidVersion true e.mapper with
      | none => rw [hscan] at h; exact absurd h (by simp)
      | some quad =>
        obtain ⟨mapper₁, newEmpty, cv, f₁⟩ := quad
        rw [hscan] at h
        simp only at h
        have hm₁ : mapper₁ = e.mapper := by
          rw [tffScan_mapper_eq _ _ _ _ _ _ _ hscan]
          exact mapper_hrs_id _ hrep
        split at h
        · split at h
          · simp only [Option.some.injEq, Prod.mk.injEq] at h
            obtain ⟨hs, hb⟩ := h
            rw [← hs]
            refine ⟨hm₁, rfl, rfl, rfl, rfl, rfl, rfl, rfl, ?_⟩
            intro t ht
            simp only [hcont₂] at ht
            exact absurd ht (List.not_mem_nil _)
          · simp only [Option.some.injEq, Prod.mk.injEq] at h
            obtain ⟨hs, hb⟩ := h
            rw [← hs]
            refine ⟨hm₁, rfl, rfl, rfl, rfl, rfl, rfl, rfl, ?_⟩
            intro t ht
            simp only [hcont₂] at ht
            exact absurd ht (List.not_mem_nil _)
        · split at h
          · simp only [Option.some.injEq, Prod.mk.injEq] at h
            obtain ⟨hs, hb⟩ := h
            rw [← hs]
            refine ⟨hm₁, rfl, rfl, rfl, rfl, rfl, rfl, rfl, ?_⟩
            intro t ht
            simp only [hcont₂] at ht
            exact absurd ht (List.not_mem_nil _)
          · simp only [Option.some.injEq, Prod.mk.injEq] at h
            obtain ⟨hs, hb⟩ := h
            rw [← hs]
            refine ⟨?_, ?_, ?_, ?_, ?_, ?_, ?_, ?_, ?_⟩
            · rw [(foldl_pushFilter_proj _ _ _ _).1]
              exact hm₁
            · exact (foldl_pushFilter_frame _ _ _ _).1
            · exact (foldl_pushFilter_frame _ _ _ _).2.1
            · exact (foldl_pushFilter_frame _ _ _ _).2.2.1
            · exact (foldl_pushFilter_frame _ _ _ _).2.2.2.1
            · exact (foldl_pushFilter_frame _ _ _ _).2.2.2.2.1
            · exact (foldl_pushFilter_frame _ _ _ _).2.2.2.2.2.1
            · exact (foldl_pushFilter_frame _ _ _ _).2.2.2.2.2.2.1
            · intro t ht htR
              rw [mem_foldl_pushFilter] at ht
              simp only [hcont₂, List.not_mem_nil, false_or] at ht
              obtain ⟨p, hp, hcp, hpt⟩ := ht
              rw [hm₁] at hp
              have hpd : ¬ liveC p.2 := hdead p hp (by rw [hpt]; exact htR)
              have hne : p.1 ∈ newEmpty := tffScan_dead_es _ _ _ _ _ _ _ hscan p hp hpd
              have hes₁ : p.1 ∈ newEmpty.foldl (fun es t => setInsert t es)
                  e.emptyCursorStorageTeamIDs :=
                (mem_foldl_setInsert _ _ _).mpr (Or.inl hne)
              exact hcp.2 (List.mem_filter.mpr ⟨hes₁, by
                simp only [decide_eq_true_eq]
                rw [hpt]
                exact htR⟩)

theorem push_frame₂ (s : MergeState) (t : Nat) :
    (s.push t).ordered = s.ordered ∧
    (s.push t).retiredCursorStorageTeamIDs = s.retiredCursorStorageTeamIDs ∧
    (s.push t).needSnapshot = s.needSnapshot ∧
    (s.push t).snapshotVersion = s.snapshotVersion ∧
    (s.push t).snapshotContainer = s.snapshotContainer ∧
    (s.push t).maxKnownVersion = s.maxKnownVersion ∧
    (s.push t).minKnownCommittedVersion = s.minKnownCommittedVersion ∧
    (s.push t).mapper = s.mapper := by
  unfold MergeState.push
  split <;> exact ⟨rfl, rfl, rfl, rfl, rfl, rfl, rfl, rfl⟩

theorem step_updated_rel (s₀ : MergeState) (e : MergeState)
    (hnd₀ : (s₀.mapper.map Prod.fst).Nodup)
    (hrep₀ : ∀ q ∈ s₀.mapper, q.2.reportEmptyVersion = true)
    (hrel : List.Forall₂ (drainRel s₀.retiredCursorStorageTeamIDs) e.mapper s₀.mapper)
    (t : Nat) (c : StorageTeamPeekCursor) (hlk : e.mapper.lookup t = some c)
    (htR : t ∉ s₀.retiredCursorStorageTeamIDs) :
    c.next.hasRemainingState = { c with iter := c.iter + 1 } ∧
    List.Forall₂ (drainRel s₀.retiredCursorStorageTeamIDs)
      (e.mapper.map (fun p =>
        if p.1 = t then (t, c.next.hasRemainingState) else p)) s₀.mapper := by
  obtain ⟨q, hq, hqt, hqrel⟩ := forall₂_lookup hrel t c hlk
  have hcrep : c.reportEmptyVersion = true := by
    have h₂ := hqrel.2.1
    simp only at h₂
    rw [h₂]
    exact hrep₀ q hq
  have hc₂ : c.next.hasRemainingState = { c with iter := c.iter + 1 } := by
    have hnrep : c.next.reportEmptyVersion = true := hcrep
    rw [hasRemainingState_report c.next hnrep]
    rfl
  refine ⟨hc₂, ?_⟩
  apply forall₂_updateCursor hrel t c.next.hasRemainingState
  · rw [forall₂_keys hrel]
    exact hnd₀
  · intro q' hq' hq't
    have hqq : q' = q := nodup_key_eq hnd₀ hq' hq (by rw [hq't, hqt])
    subst hqq
    have h₂ := hqrel.2.1
    simp only at h₂
    refine ⟨by simp only; rw [hqt], ?_, ?_⟩
    · show c.next.hasRemainingState = { q'.2 with iter := (c.next.hasRemainingState).iter }
      have hA : c.next.hasRemainingState = { q'.2 with iter := c.iter + 1 } := by
        rw [hc₂, h₂]
      rw [hA]
    · intro hmem
      exact absurd hmem htR

theorem nextOrderedStep_replay (s₀ : MergeState) (v : Int) (C₁ : List Nat)
    (hnd₀ : (s₀.mapper.map Prod.fst).Nodup)
    (hrep₀ : ∀ q ∈ s₀.mapper, q.2.reportEmptyVersion = true)
    (e e' : MergeState)
    (hinv : ReplayInv s₀ v C₁ e) (h : e.nextOrderedStep = some e') :
    ReplayInv s₀ v C₁ e' := by
  obtain ⟨ho, hr, hn, hsv, hsc, hmx, hmn, hrel, hcR⟩ := hinv
  unfold MergeState.nextOrderedStep at h
  cases hc : e.container with
  | nil => rw [hc] at h; exact absurd h (by simp)
  | cons t restC =>
    rw [hc] at h
    simp only at h
    cases hlk : e.mapper.lookup t with
    | none => rw [hlk] at h; exact absurd h (by simp)
    | some c =>
      rw [hlk] at h
      simp only at h
      have htR : t ∉ s₀.retiredCursorStorageTeamIDs := by
        apply hcR
        rw [hc]
        exact List.mem_cons_self _ _
      obtain ⟨hc₂, hrel₂⟩ := step_updated_rel s₀ e hnd₀ hrep₀ hrel t c hlk htR
      split at h
      · -- the advanced leaf is pushed back
        injection h with h₂
        rw [← h₂]
        refine ⟨?_, ?_, ?_, ?_, ?_, ?_, ?_, ?_, ?_⟩
        · rw [(push_frame₂ _ _).1]; exact ho
        · rw [(push_frame₂ _ _).2.1]; exact hr
        · rw [(push_frame₂ _ _).2.2.1]; exact hn
        · rw [(push_frame₂ _ _).2.2.2.1]; exact hsv
        · rw [(push_frame₂ _ _).2.2.2.2.1]; exact hsc
        · rw [(push_frame₂ _ _).2.2.2.2.2.1]; exact hmx
        · rw [(push_frame₂ _ _).2.2.2.2.2.2.1]; exact hmn
        · rw [(push_frame₂ _ _).2.2.2.2.2.2.2]; exact hrel₂
        · intro u hu
          rw [mem_push] at hu
          rcases hu with he | hu
          · rw [he]; exact htR
          · apply hcR
            rw [hc]
            exact List.mem_cons.mpr (Or.inr hu)
      · -- the advanced leaf is dropped
        injection h with h₂
        rw [← h₂]
        refine ⟨ho, hr, hn, hsv, hsc, hmx, hmn, hrel₂, ?_⟩
        intro u hu
        apply hcR
        rw [hc]
        exact List.mem_cons.mpr (Or.inr hu)

theorem nextUnorderedStep_replay (s₀ : MergeState) (v : Int) (C₁ : List Nat)
    (hnd₀ : (s₀.mapper.map Prod.fst).Nodup)
    (hrep₀ : ∀ q ∈ s₀.mapper, q.2.reportEmptyVersion = true)
    (e e' : MergeState)
    (hinv : ReplayInv s₀ v C₁ e) (h : e.nextUnorderedStep = some e') :
    ReplayInv s₀ v C₁ e' := by
  obtain ⟨ho, hr, hn, hsv, hsc, hmx, hmn, hrel, hcR⟩ := hinv
  unfold MergeState.nextUnorderedStep at h
  cases hc : e.container with
  | nil => rw [hc] at h; exact absurd h (by simp)
  | cons t restC =>
    rw [hc] at h
    simp only at h
    cases hlk : e.mapper.lookup t with
    | none => rw [hlk] at h; exact absurd h (by simp)
    | some c =>
      rw [hlk] at h
      simp only at h
      have htR : t ∉ s₀.retiredCursorStorageTeamIDs := by
        apply hcR
        rw [hc]
        exact List.mem_cons_self _ _
      obtain ⟨hc₂, hrel₂⟩ := step_updated_rel s₀ e hnd₀ hrep₀ hrel t c hlk htR
      split at h
      · -- the leaf left the current version: drop it from the deque
        injection h with h₂
        rw [← h₂]
        refine ⟨ho, hr, hn, hsv, hsc, hmx, hmn, hrel₂, ?_⟩
        intro u hu
        apply hcR
        rw [hc]
        exact List.mem_cons.mpr (Or.inr hu)
      · -- the leaf stays at the front
        injection h with h₂
        rw [← h₂]
        refine ⟨ho, hr, hn, hsv, hsc, hmx, hmn, hrel₂, ?_⟩
        intro u hu
        have hu₂ : u ∈ e.container := by
          have hceq : (e.updateCursor t c.next.hasRemainingState).container =
            e.container := rfl
          exact hu
        exact hcR u hu₂

theorem tryFill_replayInv (s₀ : MergeState) (v : Int) (C₁ : List Nat)
    (hrep₀ : ∀ q ∈ s₀.mapper, q.2.reportEmptyVersion = true)
    (hdead₀ : ∀ q ∈ s₀.mapper, q.1 ∈ s₀.retiredCursorStorageTeamIDs →
      q.2.buffer.length ≤ q.2.iter)
    (e s' : MergeState) (b : Bool)
    (hinv : ReplayInv s₀ v C₁ e) (h : e.tryFillCursorContainer = some (s', b)) :
    ReplayInv s₀ v C₁ s' := by
  obtain ⟨ho, hr, hn, hsv, hsc, hmx, hmn, hrel, hcR⟩ := hinv
  have hrepE : ∀ p ∈ e.mapper, p.2.reportEmptyVersion = true := forall₂_report hrel hrep₀
  have hdeadE : ∀ p ∈ e.mapper, p.1 ∈ e.retiredCursorStorageTeamIDs → ¬ liveC p.2 := by
    intro p hp hpR
    rw [hr] at hpR
    exact not_liveC_of_exhausted p.2 (hrepE p hp) (forall₂_retired_dead hrel hdead₀ p hp hpR)
  obtain ⟨hm, ho', hr', hn', hsv', hsc', hmx', hmn', hcont⟩ :=
    tryFill_replay e s' b hrepE hdeadE h
  refine ⟨?_, ?_, ?_, ?_, ?_, ?_, ?_, ?_, ?_⟩
  · rw [ho']; exact ho
  · rw [hr']; exact hr
  · rw [hn']; exact hn
  · rw [hsv']; exact hsv
  · rw [hsc']; exact hsc
  · rw [hmx']; exact hmx
  · rw [hmn']; exact hmn
  · rw [hm]; exact hrel
  · intro t ht
    have h₂ := hcont t ht
    rw [hr] at h₂
    exact h₂

theorem hasRemainingM_replay (s₀ : MergeState) (v : Int) (C₁ : List Nat)
    (hrep₀ : ∀ q ∈ s₀.mapper, q.2.reportEmptyVersion = true)
    (hdead₀ : ∀ q ∈ s₀.mapper, q.1 ∈ s₀.retiredCursorStorageTeamIDs →
      q.2.buffer.length ≤ q.2.iter)
    (e s₁ : MergeState) (b : Bool)
    (hinv : ReplayInv s₀ v C₁ e) (h : e.hasRemainingM = some (s₁, b)) :
    ReplayInv s₀ v C₁ s₁ := by
  unfold MergeState.hasRemainingM at h
  by_cases hce : e.container.isEmpty
  · rw [if_pos hce] at h
    cases htf : e.tryFillCursorContainer with
    | none => rw [htf] at h; exact absurd h (by simp)
    | some r =>
      obtain ⟨s₂, b₂⟩ := r
      rw [htf] at h
      simp only at h
      have hinv₂ : ReplayInv s₀ v C₁ s₂ :=
        tryFill_replayInv s₀ v C₁ hrep₀ hdead₀ e s₂ b₂ hinv htf
      rw [if_neg (by rw [hinv₂.2.2.1]; exact Bool.false_ne_true)] at h
      simp only [Option.some.injEq, Prod.mk.injEq] at h
      exact h.1 ▸ hinv₂
  · rw [if_neg hce] at h
    simp only at h
    rw [if_neg (by rw [hinv.2.2.1]; exact Bool.false_ne_true)] at h
    simp only [Option.some.injEq, Prod.mk.injEq] at h
    exact h.1 ▸ hinv

theorem nextM_replay (s₀ : MergeState) (v : Int) (C₁ : List Nat)
    (hnd₀ : (s₀.mapper.map Prod.fst).Nodup)
    (hrep₀ : ∀ q ∈ s₀.mapper, q.2.reportEmptyVersion = true)
    (hdead₀ : ∀ q ∈ s₀.mapper, q.1 ∈ s₀.retiredCursorStorageTeamIDs →
      q.2.buffer.length ≤ q.2.iter)
    (e e' : MergeState)
    (hinv : ReplayInv s₀ v C₁ e) (h : e.nextM = some e') :
    ReplayInv s₀ v C₁ e' := by
  unfold MergeState.nextM at h
  by_cases ho : e.ordered = true
  · rw [if_pos ho] at h
    unfold MergeState.nextOrdered at h
    by_cases hce : e.container.isEmpty
    · rw [if_pos hce] at h
      cases htf : e.tryFillCursorContainer with
      | none => rw [htf] at h; exact absurd h (by simp)
      | some r =>
        obtain ⟨s₂, b₂⟩ := r
        rw [htf] at h
        cases b₂ with
        | false =>
          simp only at h
          exact absurd h (by simp)
        | true =>
          simp only at h
          exact nextOrderedStep_replay s₀ v C₁ hnd₀ hrep₀ s₂ e'
            (tryFill_replayInv s₀ v C₁ hrep₀ hdead₀ e s₂ true hinv htf) h
    · rw [if_neg hce] at h
      exact nextOrderedStep_replay s₀ v C₁ hnd₀ hrep₀ e e' hinv h
  · rw [if_neg ho] at h
    unfold MergeState.nextUnordered at h
    by_cases hce : e.container.isEmpty
    · rw [if_pos hce] at h
      cases htf : e.tryFillCursorContainer with
      | none => rw [htf] at h; exact absurd h (by simp)
      | some r =>
        obtain ⟨s₂, b₂⟩ := r
        rw [htf] at h
        cases b₂ with
        | false =>
          simp only at h
          exact absurd h (by simp)
        | true =>
          simp only at h
          exact nextUnorderedStep_replay s₀ v C₁ hnd₀ hrep₀ s₂ e'
            (tryFill_replayInv s₀ v C₁ hrep₀ hdead₀ e s₂ true hinv htf) h
    · rw [if_neg hce] at h
      exact nextUnorderedStep_replay s₀ v C₁ hnd₀ hrep₀ e e' hinv h

theorem drain_replayInv (s₀ : MergeState) (v : Int) (C₁ : List Nat)
    (hnd₀ : (s₀.mapper.map Prod.fst).Nodup)
    (hrep₀ : ∀ q ∈ s₀.mapper, q.2.reportEmptyVersion = true)
    (hdead₀ : ∀ q ∈ s₀.mapper, q.1 ∈ s₀.retiredCursorStorageTeamIDs →
      q.2.buffer.length ≤ q.2.iter) :
    ∀ (f : Nat) (s : MergeState) (out : List (Nat × VersionSubsequenceMessage))
      (e : MergeState),
      ReplayInv s₀ v C₁ s → MergeState.drain f s = some (out, e) →
      ReplayInv s₀ v C₁ e := by
  intro f
  induction f with
  | zero =>
    intro s out e hinv h
    unfold MergeState.drain at h
    simp only [Option.some.injEq, Prod.mk.injEq] at h
    exact h.2 ▸ hinv
  | succ g ih =>
    intro s out e hinv h
    unfold MergeState.drain at h
    cases hR : s.hasRemainingM with
    | none => rw [hR] at h; exact absurd h (by simp)
    | some r =>
      obtain ⟨s₁, b₁⟩ := r
      rw [hR] at h
      cases b₁ with
      | false =>
        simp only [Option.some.injEq, Prod.mk.injEq] at h
        exact h.2 ▸ hasRemainingM_replay s₀ v C₁ hrep₀ hdead₀ s s₁ false hinv hR
      | true =>
        simp only at h
        cases hN : s₁.nextM with
        | none => rw [hN] at h; exact absurd h (by simp)
        | some s₂ =>
          rw [hN] at h
          simp only at h
          cases hD : MergeState.drain g s₂ with
          | none => rw [hD] at h; exact absurd h (by simp)
          | some rr =>
            obtain ⟨out₂, e₂⟩ := rr
            rw [hD] at h
            simp only [Option.some.injEq, Prod.mk.injEq] at h
            have hinv₁ := hasRemainingM_replay s₀ v C₁ hrep₀ hdead₀ s s₁ true hinv hR
            have hinv₂ := nextM_replay s₀ v C₁ hnd₀ hrep₀ hdead₀ s₁ s₂ hinv₁ hN
            exact h.2 ▸ ih s₂ out₂ e₂ hinv₂ hD

theorem forall₂_drainRel_refl (R : List Nat) (l : List (Nat × StorageTeamPeekCursor)) :
    List.Forall₂ (drainRel R) l l := by
  induction l with
  | nil => exact List.Forall₂.nil
  | cons p ps ih => exact List.Forall₂.cons (drainRel_refl R p) ih

theorem tryFill_postRefill (s₀ : MergeState) (v : Int) (hpr : PostRefill s₀ v) :
    ∃ s₂, s₀.tryFillCursorContainer = some (s₂, true) ∧
      s₂.mapper = s₀.mapper ∧
      s₂.currentVersion = v ∧
      s₂.emptyCursorStorageTeamIDs = [] ∧
      s₂.ordered = s₀.ordered ∧
      s₂.retiredCursorStorageTeamIDs = s₀.retiredCursorStorageTeamIDs ∧
      s₂.needSnapshot = s₀.needSnapshot ∧
      s₂.maxKnownVersion = s₀.maxKnownVersion ∧
      s₂.minKnownCommittedVersion = s₀.minKnownCommittedVersion ∧
      s₂.container ≠ [] ∧
      (∀ t ∈ s₂.container, t ∉ s₀.retiredCursorStorageTeamIDs) := by
  obtain ⟨hcont, hes, hns, hvne, hnd, hex, hrep, hliveH, hdeadH⟩ := hpr
  obtain ⟨p₀, hp₀, hp₀R⟩ := hex
  have hdeadP : ∀ p ∈ s₀.mapper, p.1 ∈ s₀.retiredCursorStorageTeamIDs → ¬ liveC p.2 :=
    fun p hp hpR => not_liveC_of_exhausted p.2 (hrep p hp) (hdeadH p hp hpR)
  have hliveP : ∀ p ∈ s₀.mapper, p.1 ∉ s₀.retiredCursorStorageTeamIDs → liveC p.2 := by
    intro p hp hpR
    obtain ⟨hbl, hv, hpre⟩ := hliveH p hp hpR
    unfold liveC
    rw [hasRemainingState_report p.2 (hrep p hp)]
    exact hbl
  have hnotR : ∀ p ∈ s₀.mapper, liveC p.2 → p.1 ∉ s₀.retiredCursorStorageTeamIDs := by
    intro p hp hl hpR
    exact hdeadP p hp hpR hl
  have hgv : ∀ p ∈ s₀.mapper, liveC p.2 → p.2.hasRemainingState.getVersion = v := by
    intro p hp hl
    rw [hasRemainingState_report p.2 (hrep p hp)]
    exact (hliveH p hp (hnotR p hp hl)).2.1
  have halig : ∀ p ∈ s₀.mapper, ∀ q ∈ s₀.mapper, liveC p.2 → liveC q.2 →
      p.2.hasRemainingState.getVersion = q.2.hasRemainingState.getVersion := by
    intro p hp q hq hlp hlq
    rw [hgv p hp hlp, hgv q hq hlq]
  have hsome := tffScan_true_aligned invalidVersion s₀.mapper halig
  cases hscan : tffScan invalidVersion true s₀.mapper with
  | none => rw [hscan] at hsome; exact absurd hsome (by simp)
  | some quad =>
    obtain ⟨mapper₁, newEmpty, cv, f₁⟩ := quad
    have hm₁ : mapper₁ = s₀.mapper := by
      rw [tffScan_mapper_eq _ _ _ _ _ _ _ hscan]
      exact mapper_hrs_id _ hrep
    have hp₀live : liveC p₀.2 := hliveP p₀ hp₀ hp₀R
    have hcv : cv = v := by
      have h₂ : p₀.2.hasRemainingState.getVersion = cv :=
        tffScan_true_live _ _ _ hscan p₀ hp₀ hp₀live
      rw [← h₂]
      exact hgv p₀ hp₀ hp₀live
    have hesR : ∀ t ∈ newEmpty, t ∈ s₀.retiredCursorStorageTeamIDs := by
      intro t ht
      obtain ⟨p, hp, hpt, hpd⟩ := tffScan_es_dead _ _ _ _ _ _ _ hscan t ht
      by_contra htR
      exact hpd (hliveP p hp (by rw [hpt]; exact htR))
    have hsub₁ : ∀ t ∈ newEmpty.foldl (fun es t => setInsert t es)
        s₀.emptyCursorStorageTeamIDs, t ∈ s₀.retiredCursorStorageTeamIDs := by
      intro t ht
      rcases (mem_foldl_setInsert _ _ _).mp ht with h₁ | h₁
      · exact hesR t h₁
      · rw [hes] at h₁
        exact absurd h₁ (List.not_mem_nil _)
    have hrac : ∀ t, t ∈ (newEmpty.foldl (fun es t => setInsert t es)
        s₀.emptyCursorStorageTeamIDs).filter
          (fun u => decide (u ∈ s₀.retiredCursorStorageTeamIDs)) →
        t ∈ s₀.retiredCursorStorageTeamIDs := by
      intro t ht
      have h₂ := (List.mem_filter.mp ht).2
      simp only [decide_eq_true_eq] at h₂
      exact h₂
    have hes₂ : (newEmpty.foldl (fun es t => setInsert t es)
        s₀.emptyCursorStorageTeamIDs).filter
          (fun t => decide (t ∉ (newEmpty.foldl (fun es t => setInsert t es)
            s₀.emptyCursorStorageTeamIDs).filter
              (fun t => decide (t ∈ s₀.retiredCursorStorageTeamIDs)))) = [] := by
      rw [List.filter_eq_nil]
      intro t ht
      simp only [decide_eq_true_eq, not_not]
      exact List.mem_filter.mpr ⟨ht, by
        simp only [decide_eq_true_eq]
        exact hsub₁ t ht⟩
    unfold MergeState.tryFillCursorContainer
    rw [if_neg (by
      intro h0
      rw [List.length_eq_zero] at h0
      rw [h0] at hp₀
      exact absurd hp₀ (List.not_mem_nil _))]
    rw [if_neg (not_not_intro (by rw [hcont]; rfl))]
    rw [hscan]
    simp only
    rw [hm₁, hcv]
    set ES1 := newEmpty.foldl (fun es t => setInsert t es) s₀.emptyCursorStorageTeamIDs
      with hES1
    set RAC := ES1.filter (fun t => decide (t ∈ s₀.retiredCursorStorageTeamIDs)) with hRAC
    have hsub₁ : ∀ t ∈ ES1, t ∈ s₀.retiredCursorStorageTeamIDs := by
      intro t ht
      rw [hES1] at ht
      rcases (mem_foldl_setInsert _ _ _).mp ht with h₁ | h₁
      · exact hesR t h₁
      · rw [hes] at h₁
        exact absurd h₁ (List.not_mem_nil _)
    have hracR : ∀ t, t ∈ RAC → t ∈ s₀.retiredCursorStorageTeamIDs := by
      intro t ht
      rw [hRAC] at ht
      have h₂ := (List.mem_filter.mp ht).2
      simp only [decide_eq_true_eq] at h₂
      exact h₂
    have hracIn : ∀ t ∈ ES1, t ∈ RAC := by
      intro t ht
      rw [hRAC]
      exact List.mem_filter.mpr ⟨ht, by
        simp only [decide_eq_true_eq]
        exact hsub₁ t ht⟩
    have hes₂ : ES1.filter (fun t => decide (t ∉ RAC)) = [] := by
      rw [List.filter_eq_nil]
      intro t ht
      simp only [decide_eq_true_eq, not_not]
      exact hracIn t ht
    rw [hes₂]
    rw [if_neg (show ¬¬(List.isEmpty ([] : List Nat) = true) from not_not_intro rfl)]
    rw [if_neg (by
      rintro (h0 | h0)
      · rw [List.length_eq_zero] at h0
        rw [h0] at hp₀
        exact absurd hp₀ (List.not_mem_nil _)
      · exact hvne h0)]
    set S1 : MergeState := { s₀ with
      mapper := s₀.mapper
      emptyCursorStorageTeamIDs := ([] : List Nat)
      currentVersion := v } with hS1
    have hmemC : ∀ u, u ∈ (s₀.mapper.foldl (fun acc p =>
        if p.1 ∉ ([] : List Nat) ∧ p.1 ∉ RAC then acc.push p.1 else acc) S1).container ↔
        u ∈ S1.container ∨ ∃ p, p ∈ s₀.mapper ∧ (p.1 ∉ ([] : List Nat) ∧ p.1 ∉ RAC) ∧
          p.1 = u :=
      fun u => mem_foldl_pushFilter [] RAC s₀.mapper S1 u
    have hS1cont : S1.container = [] := hcont
    have hp₀C : p₀.1 ∈ (s₀.mapper.foldl (fun acc p =>
        if p.1 ∉ ([] : List Nat) ∧ p.1 ∉ RAC then acc.push p.1 else acc) S1).container := by
      rw [hmemC]
      exact Or.inr ⟨p₀, hp₀, ⟨List.not_mem_nil _,
        fun hmem => hp₀R (hracR p₀.1 hmem)⟩, rfl⟩
    refine ⟨_, rfl, ?_, ?_, ?_, ?_, ?_, ?_, ?_, ?_, ?_, ?_⟩
    · rw [(foldl_pushFilter_proj _ _ _ _).1]
    · rw [(foldl_pushFilter_proj _ _ _ _).2]
    · rw [(foldl_pushFilter_frame _ _ _ _).2.2.2.2.2.2.2]
    · rw [(foldl_pushFilter_frame _ _ _ _).1]
    · rw [(foldl_pushFilter_frame _ _ _ _).2.1]
    · rw [(foldl_pushFilter_frame _ _ _ _).2.2.1]
    · rw [(foldl_pushFilter_frame _ _ _ _).2.2.2.2.2.1]
    · rw [(foldl_pushFilter_frame _ _ _ _).2.2.2.2.2.2.1]
    · exact List.ne_nil_of_mem hp₀C
    · intro t ht htR
      rcases (hmemC t).mp ht with h₁ | ⟨p, hp, hcp, hpt⟩
      · rw [hS1cont] at h₁
        exact absurd h₁ (List.not_mem_nil _)
      · have hpd : ¬ liveC p.2 := hdeadP p hp (by rw [hpt]; exact htR)
        have hne : p.1 ∈ newEmpty := tffScan_dead_es _ _ _ _ _ _ _ hscan p hp hpd
        have hpe : p.1 ∈ ES1 := by
          rw [hES1]
          exact (mem_foldl_setInsert _ _ _).mpr (Or.inl hne)
        exact hcp.2 (hracIn p.1 hpe)

theorem postRefill_first_step (s₀ : MergeState) (v : Int) (hpr : PostRefill s₀ v) :
    ∃ s₁, s₀.hasRemainingM = some (s₁, true) ∧
      ReplayInv s₀ v s₁.container s₁ ∧
      s₁.mapper = s₀.mapper ∧
      s₁.currentVersion = v ∧
      s₁.emptyCursorStorageTeamIDs = [] ∧
      s₁.hasRemainingM = some (s₁, true) := by
  obtain ⟨s₂, htf, hm, hcv, hes₂, ho, hr, hn, hmx, hmn, hcne, hcR⟩ :=
    tryFill_postRefill s₀ v hpr
  refine ⟨{ s₂ with
      needSnapshot := false
      snapshotVersion := s₂.currentVersion
      snapshotContainer := s₂.container }, ?_, ?_, ?_, ?_, ?_, ?_⟩
  · unfold MergeState.hasRemainingM
    rw [if_pos (show s₀.container.isEmpty = true by rw [hpr.1]; rfl)]
    rw [htf]
    simp only
    rw [if_pos (show s₂.needSnapshot = true by rw [hn]; exact hpr.2.2.1)]
  · refine ⟨?_, ?_, rfl, ?_, rfl, ?_, ?_, ?_, ?_⟩
    · show s₂.ordered = s₀.ordered
      exact ho
    · show s₂.retiredCursorStorageTeamIDs = s₀.retiredCursorStorageTeamIDs
      exact hr
    · show s₂.currentVersion = v
      exact hcv
    · show s₂.maxKnownVersion = s₀.maxKnownVersion
      exact hmx
    · show s₂.minKnownCommittedVersion = s₀.minKnownCommittedVersion
      exact hmn
    · show List.Forall₂ (drainRel s₀.retiredCursorStorageTeamIDs) s₂.mapper s₀.mapper
      rw [hm]
      exact forall₂_drainRel_refl _ _
    · show ∀ t ∈ s₂.container, t ∉ s₀.retiredCursorStorageTeamIDs
      exact hcR
  · show s₂.mapper = s₀.mapper
    exact hm
  · show s₂.currentVersion = v
    exact hcv
  · show s₂.emptyCursorStorageTeamIDs = []
    exact hes₂
  · unfold MergeState.hasRemainingM
    rw [if_neg (fun hc => hcne (List.isEmpty_iff.mp hc))]
    simp only
    rw [if_neg (fun hc => Bool.false_ne_true hc)]

theorem resetM_recovers (s₀ : MergeState) (v : Int) (hpr : PostRefill s₀ v)
    (s₁ e : MergeState)
    (hinv : ReplayInv s₀ v s₁.container e)
    (hm : s₁.mapper = s₀.mapper)
    (hcv : s₁.currentVersion = v)
    (hes : s₁.emptyCursorStorageTeamIDs = [])
    (hinv₁ : ReplayInv s₀ v s₁.container s₁) :
    e.resetM = s₁ := by
  obtain ⟨ho, hr, hn, hsv, hsc, hmx, hmn, hrel, hcR⟩ := hinv
  obtain ⟨ho₁, hr₁, hn₁, hsv₁, hsc₁, hmx₁, hmn₁, hrel₁, hcR₁⟩ := hinv₁
  unfold MergeState.resetM
  rw [if_neg (by rw [hsv]; exact hpr.2.2.2.1)]
  apply mergeState_ext
  · show e.ordered = s₁.ordered
    rw [ho, ho₁]
  · show e.mapper.map (fun p =>
      if p.1 ∈ e.retiredCursorStorageTeamIDs then p
      else (p.1, p.2.reset.scanToVersion e.snapshotVersion)) = s₁.mapper
    rw [hr, hsv, hm]
    exact mapper_reset_recover s₀.retiredCursorStorageTeamIDs v hrel
      hpr.2.2.2.2.2.2.1 hpr.2.2.2.2.2.2.2.1
  · show e.snapshotContainer = s₁.container
    exact hsc
  · show ([] : List Nat) = s₁.emptyCursorStorageTeamIDs
    rw [hes]
  · show e.retiredCursorStorageTeamIDs = s₁.retiredCursorStorageTeamIDs
    rw [hr, hr₁]
  · show e.snapshotVersion = s₁.currentVersion
    rw [hsv, hcv]
  · show e.maxKnownVersion = s₁.maxKnownVersion
    rw [hmx, hmx₁]
  · show e.minKnownCommittedVersion = s₁.minKnownCommittedVersion
    rw [hmn, hmn₁]
  · show e.needSnapshot = s₁.needSnapshot
    rw [hn, hn₁]
  · show e.snapshotVersion = s₁.snapshotVersion
    rw [hsv, hsv₁]
  · show e.snapshotContainer = s₁.snapshotContainer
    rw [hsc, hsc₁]

/-- Claim C2: replay idempotence of the broadcast merge cursor (both
variants).  From any state reached by a successful `remoteMoreAvailable`
refill (`PostRefill`), draining the cursor locally, calling `reset`, and
draining again replays exactly the same `(team, triple)` sequence and ends
in exactly the same state: the first `hasRemaining` captures a lazy snapshot
of `(current_version, container)`, and `reset` restores it while rewinding
each non-retired leaf onto the snapshot version. -/
theorem replay_after_refill (s₀ : MergeState) (v : Int) (F : Nat)
    (out : List (Nat × VersionSubsequenceMessage)) (e : MergeState)
    (hpr : PostRefill s₀ v)
    (hdrain : MergeState.drain (F + 1) s₀ = some (out, e)) :
    MergeState.drain (F + 1) e.resetM = some (out, e) := by
  obtain ⟨s₁, hfirst, hinv₁, hm, hcv, hes, hfix⟩ := postRefill_first_step s₀ v hpr
  have halign : MergeState.drain (F + 1) s₀ = MergeState.drain (F + 1) s₁ := by
    conv_lhs => unfold MergeState.drain
    conv_rhs => unfold MergeState.drain
    rw [hfirst, hfix]
  have hdrain₁ : MergeState.drain (F + 1) s₁ = some (out, e) := by
    rw [← halign]
    exact hdrain
  have hinve : ReplayInv s₀ v s₁.container e :=
    drain_replayInv s₀ v s₁.container hpr.2.2.2.2.1 hpr.2.2.2.2.2.2.1
      hpr.2.2.2.2.2.2.2.2 (F + 1) s₁ out e hinv₁ hdrain₁
  have hreset : e.resetM = s₁ :=
    resetM_recovers s₀ v hpr s₁ e hinve hm hcv hes hinv₁
  rw [hreset]
  exact hdrain₁

instance postRefillDecidable (s : MergeState) (v : Int) : Decidable (PostRefill s v) := by
  unfold PostRefill
  infer_instance

/-- Two-leaf post-refill merge cursor used to witness the replay property:
leaf 1 still holds a partially consumed buffer (its triple at version 4 is
already consumed, the iterator sits on version 5) while leaf 2 was freshly
refilled — so the replay's `reset` must rewind leaf 1 and scan forward past
the consumed prefix. -/
def replayW : MergeState :=
  { ordered := true
    mapper := [(1, { storageTeamID := 1
                     beginVersion := 4
                     reportEmptyVersion := true
                     lastVersion := 4
                     maxKnownVersion := 5
                     minKnownCommittedVersion := 4
                     buffer := [⟨4, 1, Message.mutation 0⟩, ⟨5, 1, Message.mutation 1⟩]
                     iter := 1 }),
               (2, { storageTeamID := 2
                     beginVersion := 5
                     reportEmptyVersion := true
                     lastVersion := 5
                     maxKnownVersion := 5
                     minKnownCommittedVersion := 5
                     buffer := [⟨5, 2, Message.mutation 2⟩]
                     iter := 0 })]
    container := []
    emptyCursorStorageTeamIDs := []
    retiredCursorStorageTeamIDs := []
    currentVersion := 4
    maxKnownVersion := 4
    minKnownCommittedVersion := 4
    needSnapshot := true
    snapshotVersion := invalidVersion
    snapshotContainer := [] }

/-- Result of the first drain of the witness cursor. -/
def replayWRes : List (Nat × VersionSubsequenceMessage) × MergeState :=
  (MergeState.drain 3 replayW).getD ([], replayW)

/-- Witness for C2 at concrete inputs: the cursor drains both version-5
triples, and after `reset` — which rewinds leaf 1 to the buffer start and
scans forward past its consumed version-4 triple — the second drain replays
the sequence bit for bit and ends in the same state. -/
theorem replay_after_refill_witness :
    MergeState.drain 3 replayWRes.2.resetM = some (replayWRes.1, replayWRes.2) :=
  replay_after_refill replayW 5 2 replayWRes.1 replayWRes.2 (by decide) (by decide)

/-! ### Emission ordering of the merge cursor (claim C1) -/

theorem lexLt_asymm {a b : Int × Nat} (h : lexLt a b) : ¬ lexLt b a := by
  unfold lexLt at h ⊢
  omega

theorem orderedInsert_cases (key : Nat → Int × Nat) (t : Nat) (l : List Nat) :
    orderedInsert key t l = t :: l ∨
    ∃ x xs, l = x :: xs ∧ ¬ lexLt (key t) (key x) ∧
      orderedInsert key t l = x :: orderedInsert key t xs := by
  cases l with
  | nil => exact Or.inl rfl
  | cons x xs =>
    by_cases hlt : lexLt (key t) (key x)
    · refine Or.inl ?_
      conv_lhs => rw [orderedInsert]
      rw [if_pos hlt]
    · refine Or.inr ⟨x, xs, rfl, hlt, ?_⟩
      conv_lhs => rw [orderedInsert]
      rw [if_neg hlt]

theorem next_key_lt (c : StorageTeamPeekCursor)
    (hbuf : List.Pairwise lexLt (c.buffer.map VersionSubsequenceMessage.key))
    (hlt : c.iter + 1 < c.buffer.length) :
    lexLt c.get.key ({ c with iter := c.iter + 1 } : StorageTeamPeekCursor).get.key := by
  have h₀ : c.iter < c.buffer.length := Nat.lt_of_succ_lt hlt
  have hp := List.pairwise_iff_get.mp hbuf
    ⟨c.iter, by rw [List.length_map]; exact h₀⟩
    ⟨c.iter + 1, by rw [List.length_map]; exact hlt⟩
    (by exact Nat.lt_succ_self c.iter)
  rw [List.get_map, List.get_map] at hp
  show lexLt (c.buffer.getD c.iter default).key
    (c.buffer.getD (c.iter + 1) default).key
  rw [List.getD_eq_get c.buffer default h₀, List.getD_eq_get c.buffer default hlt]
  exact hp

theorem nextOrderedStep_key_monotone (s s' : MergeState)
    (ho : s.ordered = true)
    (hrep : ∀ p ∈ s.mapper, p.2.reportEmptyVersion = true)
    (hcnd : s.container.Nodup)
    (hsv : s.sameVersionInv)
    (hsort : List.Pairwise (fun a b => ¬ lexLt (s.keyOf b) (s.keyOf a)) s.container)
    (hbuf : ∀ p ∈ s.mapper, List.Pairwise lexLt
      (p.2.buffer.map VersionSubsequenceMessage.key))
    (h : s.nextOrderedStep = some s')
    (hne : s'.container ≠ []) :
    ¬ lexLt s'.get.key s.get.key := by
  unfold MergeState.nextOrderedStep at h
  cases hc : s.container with
  | nil => rw [hc] at h; exact absurd h (by simp)
  | cons t rest =>
    rw [hc] at h
    simp only at h
    cases hlk : s.mapper.lookup t with
    | none => rw [hlk] at h; exact absurd h (by simp)
    | some c =>
      rw [hlk] at h
      simp only at h
      rw [hc] at hcnd hsort
      have htnr : t ∉ rest := (List.nodup_cons.mp hcnd).1
      have hns := List.pairwise_cons.mp hsort
      have hget : s.get = c.get := by
        unfold MergeState.get
        rw [hc]
        simp only
        rw [hlk]
      have hmemc : (t, c) ∈ s.mapper := mem_of_lookup hlk
      have hcrep : c.reportEmptyVersion = true := hrep (t, c) hmemc
      have hkt : s.keyOf t = c.get.key := by
        unfold MergeState.keyOf
        rw [hlk]
        rfl
      have hrestfacts : ∀ x ∈ rest, ∃ cx, s.mapper.lookup x = some cx ∧
          s.keyOf x = cx.get.key ∧ ¬ lexLt cx.get.key c.get.key := by
        intro x hx
        have hxc : x ∈ s.container := by
          rw [hc]
          exact List.mem_cons.mpr (Or.inr hx)
        obtain ⟨cx, hlkx, hxl, hxv⟩ := hsv x hxc
        have hkx : s.keyOf x = cx.get.key := by
          unfold MergeState.keyOf
          rw [hlkx]
          rfl
        refine ⟨cx, hlkx, hkx, ?_⟩
        have h₂ := hns.1 x hx
        rw [hkt, hkx] at h₂
        exact h₂
      set c₂ := c.next.hasRemainingState with hc₂d
      set s₂ := (({ s with container := rest } : MergeState)).updateCursor t c₂ with hs₂d
      have hc₂e : c₂ = ({ c with iter := c.iter + 1 } : StorageTeamPeekCursor) := by
        rw [hc₂d]
        have hnrep : c.next.reportEmptyVersion = true := hcrep
        rw [hasRemainingState_report c.next hnrep]
        rfl
      have hlk₂ : s₂.mapper.lookup t = some c₂ := by
        rw [hs₂d]
        exact lookup_updateCursor_self _ t c c₂ hlk
      have hlkne : ∀ x, x ≠ t → s₂.mapper.lookup x = s.mapper.lookup x := by
        intro x hxt
        rw [hs₂d]
        exact lookup_updateCursor_ne _ t x c₂ hxt
      have hcont₂ : s₂.container = rest := by
        rw [hs₂d]
        rfl
      split at h
      · -- the advanced leaf still has a triple at the current version
        rename_i hlive
        injection h with h₂
        rw [← h₂] at hne ⊢
        have hlt₂ : c.iter + 1 < c.buffer.length := by
          have h₃ := hlive.1
          rw [hc₂e] at h₃
          simp only at h₃
          exact h₃
        have hpc : (s₂.push t).container = orderedInsert s₂.keyOf t rest := by
          unfold MergeState.push
          rw [if_pos (show s₂.ordered = true from ho)]
          rw [hcont₂]
        rcases orderedInsert_cases s₂.keyOf t rest with hoc | ⟨x, xs, hrest, hnlt, hoc⟩
        · -- the advanced leaf is the new front
          have hget₂ : (s₂.push t).get = c₂.get := by
            unfold MergeState.get
            rw [hpc, hoc]
            simp only
            rw [(push_frame _ _).1, hlk₂]
          rw [hget₂, hget]
          apply lexLt_asymm
          rw [hc₂e]
          exact next_key_lt c (hbuf (t, c) hmemc) hlt₂
        · -- the old runner-up is the new front
          have hx : x ∈ rest := by
            rw [hrest]
            exact List.mem_cons_self _ _
          have hxt : x ≠ t := fun he => htnr (he ▸ hx)
          obtain ⟨cx, hlkx, hkx, hnltx⟩ := hrestfacts x hx
          have hget₂ : (s₂.push t).get = cx.get := by
            unfold MergeState.get
            rw [hpc, hoc]
            simp only
            rw [(push_frame _ _).1, hlkne x hxt, hlkx]
          rw [hget₂, hget]
          exact hnltx
      · -- the advanced leaf left the current version and is dropped
        injection h with h₂
        rw [← h₂] at hne ⊢
        rw [hcont₂] at hne
        cases hrest : rest with
        | nil => rw [hrest] at hne; exact absurd rfl hne
        | cons x xs =>
          have hx : x ∈ rest := by
            rw [hrest]
            exact List.mem_cons_self _ _
          have hxt : x ≠ t := fun he => htnr (he ▸ hx)
          obtain ⟨cx, hlkx, hkx, hnltx⟩ := hrestfacts x hx
          have hget₂ : s₂.get = cx.get := by
            unfold MergeState.get
            rw [hcont₂, hrest]
            simp only
            rw [hlkne x hxt, hlkx]
          rw [hget₂, hget]
          exact hnltx

theorem nextUnorderedStep_front (s s' : MergeState)
    (hrep : ∀ p ∈ s.mapper, p.2.reportEmptyVersion = true)
    (hcnd : s.container.Nodup)
    (hsv : s.sameVersionInv)
    (hbuf : ∀ p ∈ s.mapper, List.Pairwise lexLt
      (p.2.buffer.map VersionSubsequenceMessage.key))
    (h : s.nextUnorderedStep = some s') :
    (s'.container = s.container.tail ∧ s.frontTeam ∉ s'.container) ∨
    (s'.container = s.container ∧ s'.frontTeam = s.frontTeam ∧
      s'.get.version = s.get.version ∧ s.get.subsequence < s'.get.subsequence) := by
  unfold MergeState.nextUnorderedStep at h
  cases hc : s.container with
  | nil => rw [hc] at h; exact absurd h (by simp)
  | cons t rest =>
    rw [hc] at h
    simp only at h
    cases hlk : s.mapper.lookup t with
    | none => rw [hlk] at h; exact absurd h (by simp)
    | some c =>
      rw [hlk] at h
      simp only at h
      rw [hc] at hcnd
      have htnr : t ∉ rest := (List.nodup_cons.mp hcnd).1
      have hget : s.get = c.get := by
        unfold MergeState.get
        rw [hc]
        simp only
        rw [hlk]
      have hmemc : (t, c) ∈ s.mapper := mem_of_lookup hlk
      have hcrep : c.reportEmptyVersion = true := hrep (t, c) hmemc
      have hfront : s.frontTeam = t := by
        unfold MergeState.frontTeam
        rw [hc]
        rfl
      set c₂ := c.next.hasRemainingState with hc₂d
      set s₂ := s.updateCursor t c₂ with hs₂d
      have hc₂e : c₂ = ({ c with iter := c.iter + 1 } : StorageTeamPeekCursor) := by
        rw [hc₂d]
        rw [hasRemainingState_report c.next
          (show c.next.reportEmptyVersion = true from hcrep)]
        rfl
      have hcont₂ : s₂.container = s.container := by
        rw [hs₂d]
        rfl
      split at h
      · -- the front leaf left the version (or ran out): it is popped for good
        injection h with h₂
        rw [← h₂]
        refine Or.inl ⟨?_, ?_⟩
        · rfl
        · rw [hfront]
          exact htnr
      · -- the front leaf stays at the front with its next triple
        rename_i hcond
        injection h with h₂
        rw [← h₂]
        rw [not_or] at hcond
        obtain ⟨hlive₀, hver₀⟩ := hcond
        rw [not_not] at hlive₀
        rw [ne_eq, not_not] at hver₀
        have hlk₂ : s₂.mapper.lookup t = some c₂ := by
          rw [hs₂d]
          exact lookup_updateCursor_self s t c c₂ hlk
        have hget₂ : s₂.get = c₂.get := by
          unfold MergeState.get
          rw [hcont₂, hc]
          simp only
          rw [hlk₂]
        have hfront₂ : s₂.frontTeam = t := by
          unfold MergeState.frontTeam
          rw [hcont₂, hc]
          rfl
        obtain ⟨c', hlk', hlt', hver'⟩ := hsv t (by rw [hc]; exact List.mem_cons_self _ _)
        have hcc : c' = c := by
          rw [hlk] at hlk'
          injection hlk' with h₃
          exact h₃.symm
        rw [hcc] at hver'
        have hsver : s₂.currentVersion = s.currentVersion := by
          rw [hs₂d]
          rfl
        have hveq : c₂.get.version = c.get.version := by
          have hv₂ : c₂.getVersion = s.currentVersion := by rw [hver₀, hsver]
          exact hv₂.trans hver'.symm
        have hlt₂ : c.iter + 1 < c.buffer.length := by
          have h₃ := hlive₀
          rw [hc₂e] at h₃
          simp only at h₃
          exact h₃
        have hkey := next_key_lt c (hbuf (t, c) hmemc) hlt₂
        rw [← hc₂e] at hkey
        refine Or.inr ⟨by rw [hcont₂]; exact hc, by rw [hfront₂, hfront], ?_, ?_⟩
        · rw [hget₂, hget]
          exact hveq
        · rw [hget₂, hget]
          unfold lexLt VersionSubsequenceMessage.key at hkey
          simp only at hkey
          omega

/-- Claim C1 (amended): emission order of the broadcast merge cursor.
Ordered variant: from any container state satisfying the heap contract
(front-minimal key order), the same-version invariant and per-leaf key-sorted
buffers, one `nextImpl` step never exposes a triple whose key is
lexicographically below the one just emitted — the emission is nondecreasing,
with ties possible across teams since the comparison has no team tie-break.
Unordered variant: a `nextImpl` step either keeps the same front team exposing
the same version with a strictly larger subsequence, or pops the front team
for good — so each team's triples at the current version are emitted
contiguously and in subsequence order. -/
theorem merge_emission_order :
    (∀ s s' : MergeState, s.ordered = true →
      (∀ p ∈ s.mapper, p.2.reportEmptyVersion = true) →
      s.container.Nodup →
      s.sameVersionInv →
      List.Pairwise (fun a b => ¬ lexLt (s.keyOf b) (s.keyOf a)) s.container →
      (∀ p ∈ s.mapper, List.Pairwise lexLt
        (p.2.buffer.map VersionSubsequenceMessage.key)) →
      s.nextOrderedStep = some s' → s'.container ≠ [] →
      ¬ lexLt s'.get.key s.get.key) ∧
    (∀ s s' : MergeState,
      (∀ p ∈ s.mapper, p.2.reportEmptyVersion = true) →
      s.container.Nodup →
      s.sameVersionInv →
      (∀ p ∈ s.mapper, List.Pairwise lexLt
        (p.2.buffer.map VersionSubsequenceMessage.key)) →
      s.nextUnorderedStep = some s' →
      ((s'.container = s.container.tail ∧ s.frontTeam ∉ s'.container) ∨
        (s'.container = s.container ∧ s'.frontTeam = s.frontTeam ∧
          s'.get.version = s.get.version ∧
          s.get.subsequence < s'.get.subsequence))) :=
  ⟨fun s s' ho hrep hcnd hsv hsort hbuf h hne =>
      nextOrderedStep_key_monotone s s' ho hrep hcnd hsv hsort hbuf h hne,
    fun s s' hrep hcnd hsv hbuf h =>
      nextUnorderedStep_front s s' hrep hcnd hsv hbuf h⟩

/-- Ordered two-team merge cursor whose leaves tie at `(5, 0)`, used as the
counterexample input for the claimed strict total order. -/
def c1W : MergeState :=
  { ordered := true
    mapper := [(1, { storageTeamID := 1
                     beginVersion := 5
                     reportEmptyVersion := true
                     lastVersion := 5
                     maxKnownVersion := 5
                     minKnownCommittedVersion := 5
                     buffer := [⟨5, 0, Message.mutation 0⟩]
                     iter := 0 }),
               (2, { storageTeamID := 2
                     beginVersion := 5
                     reportEmptyVersion := true
                     lastVersion := 5
                     maxKnownVersion := 5
                     minKnownCommittedVersion := 5
                     buffer := [⟨5, 0, Message.mutation 1⟩]
                     iter := 0 })]
    container := []
    emptyCursorStorageTeamIDs := []
    retiredCursorStorageTeamIDs := []
    currentVersion := invalidVersion
    maxKnownVersion := invalidVersion
    minKnownCommittedVersion := invalidVersion
    needSnapshot := false
    snapshotVersion := invalidVersion
    snapshotContainer := [] }

/-- Claim C1 (counterexample): the ordered merge cursor emits two triples with
equal `(version, subsequence)` keys — the first precedes the second although
its key is not lexicographically smaller, refuting the claimed equivalence:
`operatorSpaceship` has no storage-team tie-break, so cross-team ties are
emitted in container order. -/
theorem ordered_merge_emits_equal_keys :
    (MergeState.drain 3 c1W).map
      (fun r => r.1.map (fun p => p.2.key)) = some [(5, 0), (5, 0)] ∧
    ¬ lexLt (5, 0) (5, 0) :=
  ⟨by decide, by decide⟩

/-- Ordered two-team filled merge cursor used to witness the amended emission
order. -/
def c1WA : MergeState :=
  { ordered := true
    mapper := [(1, { storageTeamID := 1
                     beginVersion := 5
                     reportEmptyVersion := true
                     lastVersion := 5
                     maxKnownVersion := 5
                     minKnownCommittedVersion := 5
                     buffer := [⟨5, 1, Message.mutation 0⟩]
                     iter := 0 }),
               (2, { storageTeamID := 2
                     beginVersion := 5
                     reportEmptyVersion := true
                     lastVersion := 5
                     maxKnownVersion := 5
                     minKnownCommittedVersion := 5
                     buffer := [⟨5, 2, Message.mutation 1⟩]
                     iter := 0 })]
    container := [1, 2]
    emptyCursorStorageTeamIDs := []
    retiredCursorStorageTeamIDs := []
    currentVersion := 5
    maxKnownVersion := 5
    minKnownCommittedVersion := 5
    needSnapshot := false
    snapshotVersion := invalidVersion
    snapshotContainer := [] }

/-- State of the witness ordered cursor after one `nextImpl` step. -/
def c1WA2 : MergeState := (c1WA.nextOrderedStep).getD c1WA

/-- Unordered one-team filled merge cursor used to witness the amended
emission order. -/
def c1WB : MergeState :=
  { ordered := false
    mapper := [(1, { storageTeamID := 1
                     beginVersion := 5
                     reportEmptyVersion := true
                     lastVersion := 5
                     maxKnownVersion := 5
                     minKnownCommittedVersion := 5
                     buffer := [⟨5, 1, Message.mutation 0⟩, ⟨5, 2, Message.mutation 1⟩]
                     iter := 0 })]
    container := [1]
    emptyCursorStorageTeamIDs := []
    retiredCursorStorageTeamIDs := []
    currentVersion := 5
    maxKnownVersion := 5
    minKnownCommittedVersion := 5
    needSnapshot := false
    snapshotVersion := invalidVersion
    snapshotContainer := [] }

/-- State of the witness unordered cursor after one `nextImpl` step. -/
def c1WB2 : MergeState := (c1WB.nextUnorderedStep).getD c1WB

/-- Witness for C1 at concrete inputs: the ordered step moves from key
`(5, 1)` to `(5, 2)` (no decrease), and the unordered step keeps team 1 at
the front with the same version and a larger subsequence. -/
theorem merge_emission_order_witness :
    (¬ lexLt c1WA2.get.key c1WA.get.key) ∧
    ((c1WB2.container = c1WB.container.tail ∧ c1WB.frontTeam ∉ c1WB2.container) ∨
      (c1WB2.container = c1WB.container ∧ c1WB2.frontTeam = c1WB.frontTeam ∧
        c1WB2.get.version = c1WB.get.version ∧
        c1WB.get.subsequence < c1WB2.get.subsequence)) :=
  ⟨merge_emission_order.1 c1WA c1WA2 rfl (by decide) (by decide)
      (by intro t ht; fin_cases ht <;> exact ⟨_, rfl, by decide, by decide⟩)
      (by decide) (by decide) (by decide) (by decide),
    merge_emission_order.2 c1WB c1WB2 (by decide) (by decide)
      (by intro t ht; fin_cases ht <;> exact ⟨_, rfl, by decide, by decide⟩)
      (by decide) (by decide)⟩

end Ptxn
